import Mathlib

/-!
Shallow embedding of `angr/analyses/ddg.py` (the data/statement dependence
graph builder) and proofs about the claims of its specification.

Python dictionaries are embedded as association lists (first binding wins on
lookup, in-place replacement on update), Python sets of code locations are
embedded through an explicit heap (`Heap`) of location lists addressed by
`Nat` references, so that the object identity and in-place mutation of sets
(`live_defs.copy()` is a shallow copy in the source; `set.add` mutates a
shared object) is modelled faithfully.  Fallible code paths (KeyError,
AttributeError, the fatal `AngrDDGError`, tuple-unpacking TypeError) are
modelled with `Except`.
-/

namespace DDGModel

/-- Modelled from the spec: `CodeLocation` lives in
`angr/analyses/code_location.py`, which is not part of the given sources.
The spec describes it as `(block_address, statement_index)` optionally
refined with `instruction_address`, or `(procedure_id)` alone, an immutable
value type with structural equality. -/
structure CodeLocation where
  simrun_addr : Option Nat
  stmt_idx : Option Nat
  ins_addr : Option Nat
  sim_procedure : Option Nat
  deriving DecidableEq, Repr

/-- Modelled from the spec: the `SimVariable` hierarchy
(`SimRegisterVariable`, `SimMemoryVariable`, `SimTemporaryVariable`,
`SimConstantVariable`) comes from the external `simuvex` collaborator.
The spec describes a tagged union with structural identity
`(offset, size)` / `(address, size)` / `(id)` / singleton constant. -/
inductive SimVariable where
  | reg (offset : Nat) (size : Nat)
  | mem (addr : Nat) (size : Nat)
  | tmp (tmp_id : Nat)
  | const
  deriving DecidableEq, Repr

def SimVariable.isTmp : SimVariable → Bool
  | .tmp _ => true
  | _ => false

/-- `ProgramVariable` from the source: a variable paired with the location
at which it is defined/read; structural equality and hash. -/
structure ProgramVariable where
  variable_ : SimVariable
  location : CodeLocation
  deriving DecidableEq, Repr

/-- Values stored in edge-label dictionaries: strings (`'reg'`, `'mem'`,
`'tmp'`, `'exit'`, `'mem_addr'`, `'mem_data'`), numbers (`count`, a tmp id),
a full variable (when `keep_data` is set), or the tuples built by the edge
annotation path (these tuples only ever hold strings in the source). -/
inductive LVal where
  | s (v : String)
  | n (v : Nat)
  | var (v : SimVariable)
  | tup (v : List String)
  deriving DecidableEq, Repr

/-- A Python dict used as an edge-label mapping, as an association list with
unique keys maintained by `dSet`. -/
abbrev Labels := List (String × LVal)

/-- Association-list lookup: first binding wins (Python dict lookup). -/
def alGet {κ ν : Type} [DecidableEq κ] : List (κ × ν) → κ → Option ν
  | [], _ => none
  | p :: t, k => if p.1 = k then some p.2 else alGet t k

/-- Association-list lookup with a default (`defaultdict` access). -/
def alGetD {κ ν : Type} [DecidableEq κ] (l : List (κ × ν)) (k : κ) (d : ν) : ν :=
  (alGet l k).getD d

/-- Association-list update: replace the first binding in place, or append a
new binding (Python dict item assignment). -/
def alSet {κ ν : Type} [DecidableEq κ] : List (κ × ν) → κ → ν → List (κ × ν)
  | [], k, v => [(k, v)]
  | (k', v') :: t, k, v =>
    if k' = k then (k, v) :: t else (k', v') :: alSet t k v

/-- Association-list deletion of every binding of a key (Python `del d[k]`;
keys are unique in the dicts the source deletes from). -/
def alDel {κ ν : Type} [DecidableEq κ] (l : List (κ × ν)) (k : κ) : List (κ × ν) :=
  l.filter (fun p => decide (p.1 ≠ k))

def dGet (l : Labels) (k : String) : Option LVal := alGet l k

def dSet (l : Labels) (k : String) (v : LVal) : Labels := alSet l k v

/-- Python `dict.update`: every binding of `b` is written into `a`
(`b`'s value wins on a key collision). -/
def dUpdate (a b : Labels) : Labels :=
  b.foldl (fun acc p => dSet acc p.1 p.2) a

/-- The heap of Python set objects: cell `i` holds the contents of the set
object with identity `i`.  Needed because the source shares set objects
between the per-node live-definition dicts (shallow `dict.copy`) and
mutates them in place (`set.add`). -/
abbrev Heap := List (List CodeLocation)

def heapGet (h : Heap) (r : Nat) : List CodeLocation :=
  h.getD r []

/-- In-place `set.add` on the set object `r` (call sites check membership
before adding, so we append unconditionally as the source effectively does). -/
def heapAdd (h : Heap) (r : Nat) (loc : CodeLocation) : Heap :=
  h.set r (heapGet h r ++ [loc])

/-- Allocate a fresh set object (Python `{code_loc}` literal). -/
def heapAlloc (h : Heap) (s : List CodeLocation) : Heap × Nat :=
  (h ++ [s], h.length)

/-- A per-node live-definitions dict `variable -> set-of-locations`, holding
references into the `Heap` as the values (Python dicts hold set objects by
reference). -/
abbrev LiveDefs := List (SimVariable × Nat)

/-- The contents of the set a live-defs dict binds a variable to. -/
def liveDefsSet (h : Heap) (ld : LiveDefs) (v : SimVariable) : List CodeLocation :=
  match alGet ld v with
  | some r => heapGet h r
  | none => []

/-- A directed graph in the style of `networkx.DiGraph` (1.x): a node list
plus labelled edges keyed by the `(src, dst)` pair. -/
structure DiGraph (α : Type) where
  nodes : List α
  edges : List (α × α × Labels)
  deriving DecidableEq, Repr

namespace DiGraph

variable {α : Type} [DecidableEq α]

/-- `networkx.DiGraph.add_node`: no-op when the node is already present. -/
def add_node (g : DiGraph α) (x : α) : DiGraph α :=
  if x ∈ g.nodes then g else { g with nodes := g.nodes ++ [x] }

def hasEdge (g : DiGraph α) (u v : α) : Bool :=
  g.edges.any (fun e => decide (e.1 = u) && decide (e.2.1 = v))

/-- `networkx.DiGraph.add_edge(u, v, **labels)`: adds missing endpoints as
nodes; if the edge already exists its attribute dict is updated with the
new labels, otherwise the edge is inserted with them. -/
def add_edge (g : DiGraph α) (u v : α) (lbl : Labels) : DiGraph α :=
  let g1 := (g.add_node u).add_node v
  if g1.hasEdge u v then
    { g1 with
      edges := g1.edges.map (fun e =>
        if e.1 = u ∧ e.2.1 = v then (e.1, e.2.1, dUpdate e.2.2 lbl) else e) }
  else
    { g1 with edges := g1.edges ++ [(u, v, lbl)] }

def getEdgeLabels (g : DiGraph α) (u v : α) : Option Labels :=
  (g.edges.find? (fun e => decide (e.1 = u) && decide (e.2.1 = v))).map (·.2.2)

/-- `networkx.DiGraph.in_edges(t, data=True)`. -/
def in_edges (g : DiGraph α) (t : α) : List (α × α × Labels) :=
  g.edges.filter (fun e => decide (e.2.1 = t))

/-- `networkx.DiGraph.out_edges(t, data=True)`. -/
def out_edges (g : DiGraph α) (t : α) : List (α × α × Labels) :=
  g.edges.filter (fun e => decide (e.1 = t))

/-- Removal of every edge incident to `t` (the simplifier removes exactly
the in-edges and out-edges of the node being deleted). -/
def removeTouching (g : DiGraph α) (t : α) : DiGraph α :=
  { g with edges := g.edges.filter (fun e => decide (e.1 ≠ t) && decide (e.2.1 ≠ t)) }

/-- `networkx.DiGraph.remove_node`. -/
def remove_node (g : DiGraph α) (t : α) : DiGraph α :=
  { nodes := g.nodes.erase t
    edges := g.edges.filter (fun e => decide (e.1 ≠ t) && decide (e.2.1 ≠ t)) }

/-- The `(src, dst)` pairs of the edges. -/
def edgePairs (g : DiGraph α) : List (α × α) :=
  g.edges.map (fun e => (e.1, e.2.1))

/-- Number of edges between a given pair. -/
def countEdges (g : DiGraph α) (u v : α) : Nat :=
  (g.edges.filter (fun e => decide (e.1 = u) && decide (e.2.1 = v))).length

/-- Every edge endpoint is a node (maintained by `networkx`). -/
def closed (g : DiGraph α) : Prop :=
  ∀ e ∈ g.edges, e.1 ∈ g.nodes ∧ e.2.1 ∈ g.nodes

instance (g : DiGraph α) : Decidable g.closed := by
  unfold closed
  exact inferInstance

/-- Well-formedness maintained by `networkx`: edge endpoints are nodes,
at most one edge per `(src, dst)` pair, no duplicate nodes. -/
def wf (g : DiGraph α) : Prop :=
  g.closed ∧ g.edgePairs.Nodup ∧ g.nodes.Nodup

instance (g : DiGraph α) : Decidable g.wf := by
  unfold wf
  exact inferInstance

end DiGraph

/-- The exceptions the embedded code can raise. -/
inductive DDGErr where
  | keyError
  | unknownVariableType
  | attributeError
  | nameError
  | typeError
  deriving DecidableEq, Repr

/-- Modelled from the spec: the architecture collaborator (`archinfo`).
`register_names` maps a register offset to a name; `registers` maps a name
to `(offset, size)`.  The source additionally reads an attribute
`self.project.arch.register_name` (singular); `register_name` is `some`
when the architecture object happens to carry such an attribute and `none`
when the access raises `AttributeError` (an `archinfo` `Arch` has no such
attribute). -/
structure Arch where
  register_names : List (Nat × String)
  registers : List (String × (Nat × Nat))
  register_name : Option String
  deriving DecidableEq, Repr

/-- `DDG._get_register_size` (ddg.py:539).  When the offset is known the
source evaluates `self.project.arch.register_name` (not
`register_names[reg_offset]`) and indexes `registers` with it; otherwise it
logs a warning and returns 1. -/
def get_register_size (arch : Arch) (reg_offset : Nat) : Except DDGErr Nat :=
  if (alGet arch.register_names reg_offset).isSome then
    match arch.register_name with
    | none => .error .attributeError
    | some reg_name =>
      match alGet arch.registers reg_name with
      | some p => .ok p.2
      | none => .error .keyError
  else
    .ok 1

/-- `DDG._kill` (ddg.py:527): bind the variable to a freshly allocated
singleton set (`live_defs[variable] = {code_loc}`). -/
def kill (h : Heap) (ld : LiveDefs) (v : SimVariable) (loc : CodeLocation) :
    Heap × LiveDefs :=
  let p := heapAlloc h [loc]
  (p.1, alSet ld v p.2)

/-- One iteration of the loop body of `DDG._def_lookup` (ddg.py:497). -/
def def_lookup_step (keep_data : Bool) (v : SimVariable)
    (prevdefs : List (CodeLocation × Labels)) (loc : CodeLocation) :
    Except DDGErr (List (CodeLocation × Labels)) :=
  match
    (match v with
     | .mem _ _ => .ok "mem"
     | .reg _ _ => .ok "reg"
     | _ => .error DDGErr.unknownVariableType : Except DDGErr String) with
  | .error e => .error e
  | .ok type_ =>
    if keep_data then
      .ok (alSet prevdefs loc [("type", .s type_), ("data", .var v)])
    else
      match alGet prevdefs loc with
      | some lbl =>
        match dGet lbl "count" with
        | some (.n c) =>
          .ok (alSet prevdefs loc [("type", .s type_), ("count", .n (c + 1))])
        | _ => .error DDGErr.keyError
      | none => .ok (alSet prevdefs loc [("type", .s type_), ("count", .n 0)])

/-- `DDG._def_lookup` (ddg.py:485): one `(location, labels)` entry per
reaching definition of the variable. -/
def def_lookup (keep_data : Bool) (h : Heap) (ld : LiveDefs) (v : SimVariable) :
    Except DDGErr (List (CodeLocation × Labels)) :=
  match alGet ld v with
  | none => .ok []
  | some r => (heapGet h r).foldlM (def_lookup_step keep_data v) []

/-- `DDG._stmt_graph_add_edge` (ddg.py:587): no-op when the `(src, dst)`
edge is already present (`src in graph and dst in graph[src]`). -/
def stmt_graph_add_edge (g : DiGraph CodeLocation) (src dst : CodeLocation)
    (lbl : Labels) : DiGraph CodeLocation :=
  if src ∈ g.nodes ∧ g.hasEdge src dst then g else g.add_edge src dst lbl

/-- `DDG._data_graph_add_edge` (ddg.py:570): same guard as the statement
graph (the cache invalidation it also performs is implicit here: the
simplified graph is modelled as computed on demand). -/
def data_graph_add_edge (g : DiGraph ProgramVariable) (src dst : ProgramVariable)
    (lbl : Labels) : DiGraph ProgramVariable :=
  if src ∈ g.nodes ∧ g.hasEdge src dst then g else g.add_edge src dst lbl

/-- `DDG._data_graph_add_node` (ddg.py:558). -/
def data_graph_add_node (g : DiGraph ProgramVariable) (n : ProgramVariable) :
    DiGraph ProgramVariable :=
  g.add_node n

/-- `data[k] = data[k] + (v,)` when `k` is present, else `data[k] = (v,)`
(ddg.py:624).  The only keys the source ever extends this way are written
exclusively by this annotation path, so the existing value is always a
tuple; a non-tuple value (which would raise `TypeError` in Python) is left
unchanged, and that case is unreachable under the source's usage. -/
def tupAppendVal (old : Option LVal) (v : String) : LVal :=
  match old with
  | some (.tup l) => .tup (l ++ [v])
  | some other => other
  | none => .tup [v]

/-- One iteration of `DDG._stmt_graph_annotate_edges` (ddg.py:615): skip
pairs whose edge is gone, otherwise extend the tuple-valued label in place. -/
def annotate_one (k v : String) (g : DiGraph CodeLocation)
    (p : CodeLocation × CodeLocation) : DiGraph CodeLocation :=
  if p.1 ∈ g.nodes ∧ g.hasEdge p.1 p.2 then
    { g with
      edges := g.edges.map (fun e =>
        if e.1 = p.1 ∧ e.2.1 = p.2 then
          (e.1, e.2.1, dSet e.2.2 k (tupAppendVal (dGet e.2.2 k) v))
        else e) }
  else g

/-- `DDG._stmt_graph_annotate_edges` (ddg.py:604), specialised to a single
new label `k=v` (every call site passes exactly one keyword). -/
def stmt_graph_annotate_edges (g : DiGraph CodeLocation)
    (ps : List (CodeLocation × CodeLocation)) (k v : String) : DiGraph CodeLocation :=
  ps.foldl (annotate_one k v) g

inductive ActionKind where
  | mem
  | reg
  | tmp
  | exit
  deriving DecidableEq, Repr

inductive RW where
  | read
  | write
  deriving DecidableEq, Repr

/-- Modelled from the spec: one entry of a node's recorded action trace
(`state.log.actions`), produced by the external execution engine.  Fields
mirror exactly the attributes `DDG._track` reads from a `SimAction`:
`a.type`, `a.action`, `a.bbl_addr`, `a.stmt_idx`, `a.ins_addr`,
`a.sim_procedure`, `a.actual_addrs`, `a.addr.{ast,reg_deps,tmp_deps}`
(`addr_concrete` is `some v` when `state.se.any_int(a.addr.ast)` resolves
and `none` when that raises, i.e. the address is symbolic),
`a.data.ast.size()`, `a.data.{reg_deps,tmp_deps}`, `a.offset`, `a.tmp`,
`a.reg_deps`, `a.tmp_deps`. -/
structure SimAction where
  type : ActionKind
  action : RW := .read
  bbl_addr : Option Nat := none
  stmt_idx : Option Nat := none
  ins_addr : Option Nat := none
  sim_procedure : Option Nat := none
  actual_addrs : Option (List Nat) := none
  addr_concrete : Option Nat := none
  addr_reg_deps : List Nat := []
  addr_tmp_deps : List Nat := []
  data_size : Nat := 0
  data_reg_deps : List Nat := []
  data_tmp_deps : List Nat := []
  offset : Nat := 0
  tmp : Nat := 0
  reg_deps : List Nat := []
  tmp_deps : List Nat := []
  deriving DecidableEq, Repr

/-- The `current_code_location` computed at ddg.py:331. -/
def currentLoc (a : SimAction) : CodeLocation :=
  match a.bbl_addr with
  | none => ⟨none, none, none, a.sim_procedure⟩
  | some b => ⟨some b, a.stmt_idx, a.ins_addr, none⟩

/-- The address set of a memory action (ddg.py:337): the engine-reported
addresses as a set, else the concretised address expression, else the fixed
sentinel address `0x60000000`. -/
def addrList (a : SimAction) : List Nat :=
  match a.actual_addrs with
  | some l => l.dedup
  | none =>
    match a.addr_concrete with
    | some v => [v]
    | none => [0x60000000]

/-- The scan state of `DDG._track` (ddg.py:305).  `pv_leak` models the
Python local variable `pv`, which leaks across loop iterations and is read
by the trailing `tmp_deps` loop of the register branch even on a read. -/
structure TrackState where
  heap : Heap
  live_defs : LiveDefs
  temp_defs : List (Nat × CodeLocation)
  temp_variables : List (Nat × ProgramVariable)
  temps_to_edges : List (Nat × List (CodeLocation × CodeLocation))
  regs_to_edges : List (Nat × List (CodeLocation × CodeLocation))
  last_statement_id : Option Nat
  data_read : List ProgramVariable
  pv_leak : Option ProgramVariable
  stmt_graph : DiGraph CodeLocation
  data_graph : DiGraph ProgramVariable
  deriving DecidableEq, Repr

/-- The statement-graph edges inserted for the reaching definitions of a
read (ddg.py:357/404). -/
def stmt_edges_from_prevdefs (cur : CodeLocation) (g : DiGraph CodeLocation)
    (prevdefs : List (CodeLocation × Labels)) : DiGraph CodeLocation :=
  prevdefs.foldl (fun g pr => stmt_graph_add_edge g pr.1 cur pr.2) g

/-- Body of `for reg_offset in a.addr.reg_deps` / `a.data.reg_deps`
(ddg.py:367-373 and 380-386), parameterised over the `subtype` value. -/
def mem_reg_dep_step (keep_data : Bool) (arch : Arch) (subtype : String)
    (st : TrackState) (reg_offset : Nat) : Except DDGErr TrackState :=
  let st1 : TrackState := { st with
    stmt_graph := stmt_graph_annotate_edges st.stmt_graph
      (alGetD st.regs_to_edges reg_offset []) "subtype" subtype }
  match get_register_size arch reg_offset with
  | .error e => .error e
  | .ok sz =>
    match def_lookup keep_data st1.heap st1.live_defs (.reg reg_offset sz) with
    | .error e => .error e
    | .ok prev_defs =>
      -- `for loc, _ in prev_defs:` (ddg.py:371/384) tuple-unpacks the dict
      -- KEYS, which are CodeLocation objects and not iterable: it raises
      -- TypeError whenever prev_defs is non-empty, so the data-graph edges
      -- in its body are dead code.
      if prev_defs = [] then .ok st1 else .error DDGErr.typeError

/-- Body of `for tmp in a.addr.tmp_deps` / `a.data.tmp_deps`
(ddg.py:375-378 and 388-391). -/
def mem_tmp_dep_step (subtype : String) (pv : ProgramVariable)
    (st : TrackState) (tmp : Nat) : TrackState :=
  let sg := stmt_graph_annotate_edges st.stmt_graph
    (alGetD st.temps_to_edges tmp []) "subtype" subtype
  let st := { st with stmt_graph := sg }
  match alGet st.temp_variables tmp with
  | some tv =>
    { st with data_graph :=
        data_graph_add_edge st.data_graph tv pv [("type", .s subtype)] }
  | none => st

/-- The four dependency-annotation loops of the memory branch
(ddg.py:366-391). -/
def track_mem_deps (keep_data : Bool) (arch : Arch) (a : SimAction)
    (pv : ProgramVariable) (st1 : TrackState) : Except DDGErr TrackState :=
  match a.addr_reg_deps.foldlM (mem_reg_dep_step keep_data arch "mem_addr") st1 with
  | .error e => .error e
  | .ok st2 =>
    let st3 := a.addr_tmp_deps.foldl (mem_tmp_dep_step "mem_addr" pv) st2
    match a.data_reg_deps.foldlM (mem_reg_dep_step keep_data arch "mem_data") st3 with
    | .error e => .error e
    | .ok st4 => .ok (a.data_tmp_deps.foldl (mem_tmp_dep_step "mem_data" pv) st4)

/-- The per-address body of the memory branch of `DDG._track`
(ddg.py:347-391). -/
def track_mem_one (keep_data : Bool) (arch : Arch) (a : SimAction)
    (cur : CodeLocation) (st : TrackState) (addr : Nat) :
    Except DDGErr TrackState :=
  match
    (match a.action with
     | .read =>
       match def_lookup keep_data st.heap st.live_defs (.mem addr a.data_size) with
       | .error e => .error e
       | .ok prevdefs =>
         .ok { st with
           pv_leak := some ⟨.mem addr a.data_size, cur⟩
           stmt_graph := stmt_edges_from_prevdefs cur st.stmt_graph prevdefs
           data_read := st.data_read ++ [⟨.mem addr a.data_size, cur⟩] }
     | .write =>
       let p := kill st.heap st.live_defs (.mem addr a.data_size) cur
       .ok { st with pv_leak := some ⟨.mem addr a.data_size, cur⟩
                     heap := p.1, live_defs := p.2 } : Except DDGErr TrackState) with
  | .error e => .error e
  | .ok st1 => track_mem_deps keep_data arch a ⟨.mem addr a.data_size, cur⟩ st1

/-- Body of the reaching-definition loop of a register read
(ddg.py:404-410). -/
def reg_read_prev_step (v : SimVariable) (reg_offset : Nat)
    (cur : CodeLocation) (st : TrackState) (pr : CodeLocation × Labels) :
    TrackState :=
  { st with
    stmt_graph := stmt_graph_add_edge st.stmt_graph pr.1 cur pr.2
    regs_to_edges := alSet st.regs_to_edges reg_offset
      (alGetD st.regs_to_edges reg_offset [] ++ [(pr.1, cur)])
    data_read := st.data_read ++ [⟨v, pr.1⟩] }

/-- Body of the trailing `for tmp in a.tmp_deps` of the register branch
(ddg.py:433-435); reads the leaked Python local `pv`. -/
def reg_tmp_dep_step (st : TrackState) (tmp : Nat) : Except DDGErr TrackState :=
  match alGet st.temp_variables tmp with
  | some tv =>
    match st.pv_leak with
    | some pv =>
      pure { st with data_graph := data_graph_add_edge st.data_graph tv pv [] }
    | none => throw .nameError
  | none => pure st

/-- The write branch of the register case (ddg.py:416-431). -/
def reg_write_state (a : SimAction) (cur : CodeLocation) (st : TrackState) :
    TrackState :=
  let v : SimVariable := .reg a.offset a.data_size
  let p := kill st.heap st.live_defs v cur
  let pv : ProgramVariable := ⟨v, cur⟩
  let st1 : TrackState := { st with
    heap := p.1, live_defs := p.2
    regs_to_edges := alDel st.regs_to_edges a.offset
    pv_leak := some pv
    data_graph := data_graph_add_node st.data_graph pv }
  if a.reg_deps = [] ∧ a.tmp_deps = [] then
    { st1 with data_graph := data_graph_add_edge st1.data_graph ⟨.const, cur⟩ pv [] }
  else
    st1

/-- The register branch of `DDG._track` (ddg.py:393-435). -/
def track_reg (keep_data : Bool) (a : SimAction) (cur : CodeLocation)
    (st : TrackState) : Except DDGErr TrackState :=
  match
    (match a.action with
     | .read =>
       match def_lookup keep_data st.heap st.live_defs (.reg a.offset a.data_size) with
       | .error e => .error e
       | .ok prevdefs =>
         let st1 := prevdefs.foldl
           (reg_read_prev_step (.reg a.offset a.data_size) a.offset cur) st
         if prevdefs = [] then
           .ok { st1 with data_read :=
               st1.data_read ++ [⟨.reg a.offset a.data_size, cur⟩] }
         else
           .ok st1
     | .write => .ok (reg_write_state a cur st) : Except DDGErr TrackState) with
  | .error e => .error e
  | .ok st2 => a.tmp_deps.foldlM reg_tmp_dep_step st2

/-- Body of `for tmp_dep in a.tmp_deps` of a temporary write
(ddg.py:459-461). -/
def tmp_write_dep_step (pv : ProgramVariable) (st : TrackState)
    (tmp_dep : Nat) : TrackState :=
  match alGet st.temp_variables tmp_dep with
  | some tv => { st with data_graph := data_graph_add_edge st.data_graph tv pv [] }
  | none => st

/-- Body of `for data in data_read` of a temporary write (ddg.py:463-464). -/
def tmp_write_data_read_step (pv : ProgramVariable) (st : TrackState)
    (d : ProgramVariable) : TrackState :=
  { st with data_graph := data_graph_add_edge st.data_graph d pv [] }

/-- The temporary branch of `DDG._track` (ddg.py:437-464). -/
def track_tmp (a : SimAction) (cur : CodeLocation) (st : TrackState) :
    Except DDGErr TrackState :=
  let pv : ProgramVariable := ⟨.tmp a.tmp, cur⟩
  let st0 : TrackState := { st with pv_leak := some pv }
  match a.action with
  | .read =>
    match alGet st0.temp_defs a.tmp with
    | none => .error DDGErr.keyError
    | some prev =>
      .ok { st0 with
        stmt_graph := stmt_graph_add_edge st0.stmt_graph prev cur
          [("type", .s "tmp"), ("data", .n a.tmp)]
        temps_to_edges := alSet st0.temps_to_edges a.tmp
          (alGetD st0.temps_to_edges a.tmp [] ++ [(prev, cur)]) }
  | .write =>
    let st1 : TrackState := { st0 with
      temp_defs := alSet st0.temp_defs a.tmp cur
      temp_variables := alSet st0.temp_variables a.tmp pv
      temps_to_edges := alDel st0.temps_to_edges a.tmp }
    let st2 := a.tmp_deps.foldl (tmp_write_dep_step pv) st1
    .ok (st2.data_read.foldl (tmp_write_data_read_step pv) st2)

/-- Body of the exit branch of `DDG._track` (ddg.py:468-476). -/
def exit_tmp_step (cur : CodeLocation) (st : TrackState) (tmp : Nat) :
    Except DDGErr TrackState :=
  match alGet st.temp_defs tmp with
  | none => .error DDGErr.keyError
  | some prev =>
    .ok { st with
      stmt_graph := stmt_graph_add_edge st.stmt_graph prev cur
        [("type", .s "exit"), ("data", .s "tmp")]
      temps_to_edges := alSet st.temps_to_edges tmp
        (alGetD st.temps_to_edges tmp [] ++ [(prev, cur)]) }

/-- The exit branch of `DDG._track` (ddg.py:466-476). -/
def track_exit (a : SimAction) (cur : CodeLocation) (st : TrackState) :
    Except DDGErr TrackState :=
  a.tmp_deps.foldlM (exit_tmp_step cur) st

/-- Processing of one action of the trace (the body of the loop at
ddg.py:325). -/
def trackStep (keep_data : Bool) (arch : Arch) (st : TrackState)
    (a : SimAction) : Except DDGErr TrackState :=
  let st :=
    if st.last_statement_id = none ∨ st.last_statement_id ≠ a.stmt_idx then
      { st with data_read := [], last_statement_id := a.stmt_idx }
    else st
  let cur := currentLoc a
  match a.type with
  | .mem => (addrList a).foldlM (track_mem_one keep_data arch a cur) st
  | .reg => track_reg keep_data a cur st
  | .tmp => track_tmp a cur st
  | .exit => track_exit a cur st

inductive JumpKind where
  | call
  | ret
  | fakeRet
  | ordinary
  deriving DecidableEq, Repr

/-- Modelled from the spec: one final execution state of a CFG node, as
consumed by the scheduler: a jump kind, a next-instruction pointer that is
either concretely resolvable (`some a`) or symbolic (`none`), and the
recorded action trace. -/
structure SimState where
  jumpkind : JumpKind
  ip : Option Nat
  actions : List SimAction
  deriving DecidableEq, Repr

/-- `DDG._track` (ddg.py:295): scan the action trace; the initial
`live_defs.copy()` is a shallow copy, so the set references of `ld` are
shared with the caller's dict (our association list is passed by value and
the heap cells are shared, which models exactly that). -/
def track (keep_data : Bool) (arch : Arch) (h : Heap) (ld : LiveDefs)
    (sg : DiGraph CodeLocation) (dg : DiGraph ProgramVariable)
    (state : SimState) :
    Except DDGErr (Heap × LiveDefs × DiGraph CodeLocation × DiGraph ProgramVariable) :=
  match state.actions.foldlM (trackStep keep_data arch)
      ({ heap := h, live_defs := ld, temp_defs := [], temp_variables := []
         temps_to_edges := [], regs_to_edges := [], last_statement_id := none
         data_read := [], pv_leak := none, stmt_graph := sg, data_graph := dg } :
        TrackState) with
  | .error e => .error e
  | .ok st => .ok (st.heap, st.live_defs, st.stmt_graph, st.data_graph)

/-- Modelled from the spec: a CFG node of the external CFG collaborator,
with its block start address and its final execution states; `nid`
disambiguates nodes (Python compares node objects). -/
structure CFGNode where
  nid : Nat
  addr : Nat
  final_states : List SimState
  deriving DecidableEq, Repr

/-- Modelled from the spec: the externally supplied CFG, a node set with
out-edges tagged with a jump kind. -/
structure CFG where
  nodes : List CFGNode
  edges : List (CFGNode × CFGNode × JumpKind)
  deriving DecidableEq, Repr

def CFG.out_edges (cfg : CFG) (n : CFGNode) : List (CFGNode × CFGNode × JumpKind) :=
  cfg.edges.filter (fun e => decide (e.1 = n))

def CFG.successors (cfg : CFG) (n : CFGNode) : List CFGNode :=
  (cfg.out_edges n).map (·.2.1)

def CFG.in_degree (cfg : CFG) (n : CFGNode) : Nat :=
  (cfg.edges.filter (fun e => decide (e.2.1 = n))).length

/-- `DDGJob` (ddg.py:41): `(cfg_node, call_depth)`.  Depth arithmetic uses
Python integers, hence `Int`. -/
abbrev DDGJob := CFGNode × Int

/-- The worklist and its parallel membership set. -/
structure Worklist where
  list : List DDGJob
  set : List CFGNode
  deriving DecidableEq, Repr

/-- One pass over the out-edges of a popped DFS stack entry in
`DDG._worklist_append` (ddg.py:694-719): pushes of new jobs respect the
call-depth bound (call: needs `call_depth < bound`; ret: needs
`call_depth > 0`). -/
def wl_expand_edges (call_depth_limit : Option Int) (nw : DDGJob)
    (edges : List (CFGNode × CFGNode × JumpKind)) (wl : Worklist)
    (traversed : List CFGNode) (stack : List DDGJob) :
    Worklist × List CFGNode × List DDGJob :=
  edges.foldl (fun acc e =>
    let wl := acc.1
    let traversed := acc.2.1
    let stack := acc.2.2
    let dst := e.2.1
    if dst ∉ traversed ∧ dst ∉ wl.set then
      let traversed := dst :: traversed
      match e.2.2 with
      | .call =>
        if call_depth_limit = none ∨ (∃ b, call_depth_limit = some b ∧ nw.2 < b) then
          let j : DDGJob := (dst, nw.2 + 1)
          (⟨wl.list ++ [j], dst :: wl.set⟩, traversed, j :: stack)
        else
          (wl, traversed, stack)
      | .ret =>
        if nw.2 > 0 then
          let j : DDGJob := (dst, nw.2 - 1)
          (⟨wl.list ++ [j], dst :: wl.set⟩, traversed, j :: stack)
        else
          (wl, traversed, stack)
      | _ =>
        let j : DDGJob := (dst, nw.2)
        (⟨wl.list ++ [j], dst :: wl.set⟩, traversed, j :: stack)
    else
      (wl, traversed, stack)) (wl, traversed, stack)

/-- The DFS loop of `DDG._worklist_append` (ddg.py:687), fuelled.  The
stack is kept head-first: pushing onto the head and popping the head gives
the same order as Python's `list.append` / `list.pop()`. -/
def wl_loop (cfg : CFG) (call_depth_limit : Option Int) :
    Nat → List DDGJob → List CFGNode → Worklist → Option Worklist
  | 0, _, _, _ => none
  | fuel + 1, stack, traversed, wl =>
    match stack with
    | [] => some wl
    | nw :: stackRest =>
      let r := wl_expand_edges call_depth_limit nw (cfg.out_edges nw.1) wl
        traversed stackRest
      wl_loop cfg call_depth_limit fuel r.2.2 r.2.1 r.1

/-- `DDG._worklist_append` (ddg.py:665): no-op when the node is pending;
otherwise append it and eagerly pre-expand its reachable successors
(without running the tracker). -/
def worklist_append (cfg : CFG) (call_depth_limit : Option Int) (fuel : Nat)
    (nw : DDGJob) (wl : Worklist) : Option Worklist :=
  if nw.1 ∈ wl.set then
    some wl
  else
    wl_loop cfg call_depth_limit fuel [nw] [nw.1]
      ⟨wl.list ++ [nw], nw.1 :: wl.set⟩

/-- The merge of the tracker's output definitions into the successor's
live-defs dict (ddg.py:274-287): a missing variable is bound to the SAME
set object (`defs_for_next_node[var] = code_loc_set`), an existing
variable's set is mutated in place (`defs_for_next_node[var].add(...)`).
Returns the updated heap, the successor's dict, and the `changed` flag.
`merge_inner_step` is the body of `for code_loc in code_loc_set`
(ddg.py:282-286), `merge_entry_step` the body of
`for var, code_loc_set in new_defs.iteritems()` (ddg.py:275). -/
def merge_inner_step (tref : Nat) (acc2 : Heap × LiveDefs × Bool)
    (loc : CodeLocation) : Heap × LiveDefs × Bool :=
  if loc ∈ heapGet acc2.1 tref then acc2
  else (heapAdd acc2.1 tref loc, acc2.2.1, true)

def merge_entry_step (acc : Heap × LiveDefs × Bool) (entry : SimVariable × Nat) :
    Heap × LiveDefs × Bool :=
  match alGet acc.2.1 entry.1 with
  | none => (acc.1, alSet acc.2.1 entry.1 entry.2, true)
  | some tref => (heapGet acc.1 entry.2).foldl (merge_inner_step tref) acc

def merge_defs (h : Heap) (target : LiveDefs) (new_defs : LiveDefs) :
    Heap × LiveDefs × Bool :=
  new_defs.foldl merge_entry_step (h, target, false)

/-- The mutable state of the fixpoint loop of `DDG._construct`. -/
structure ConstructState where
  heap : Heap
  live_defs_per_node : List (CFGNode × LiveDefs)
  stmt_graph : DiGraph CodeLocation
  data_graph : DiGraph ProgramVariable
  wl : Worklist
  deriving DecidableEq, Repr

/-- The body of `for state in final_states` (ddg.py:243-293) for one final
state of the popped node `(node, call_depth)`.  `nstates` is
`len(final_states)`.  The node's live defs are re-read from the store at
each iteration, as Python's `live_defs` local aliases the stored dict. -/
def construct_state_step (keep_data : Bool) (arch : Arch) (cfg : CFG)
    (call_depth_limit : Option Int) (wl_fuel : Nat) (node : CFGNode)
    (call_depth : Int) (nstates : Nat) (cs : ConstructState)
    (state : SimState) : Except DDGErr (Option ConstructState) :=
  if state.jumpkind = .fakeRet ∧ nstates > 1 then
    .ok (some cs)
  else
    let new_call_depth : Int :=
      match state.jumpkind with
      | .call => call_depth + 1
      | .ret => call_depth - 1
      | _ => call_depth
    if ∃ b, call_depth_limit = some b ∧ call_depth > b then
      .ok (some cs)
    else
      match track keep_data arch cs.heap (alGetD cs.live_defs_per_node node [])
          cs.stmt_graph cs.data_graph state with
      | .error e => .error e
      | .ok r =>
        let new_defs := r.2.1
        let cs1 : ConstructState :=
          { cs with heap := r.1, stmt_graph := r.2.2.1, data_graph := r.2.2.2 }
        match
          (match state.ip with
           | none => []
           | some a => (cfg.successors node).filter (fun m => decide (m.addr = a))) with
        | [] => .ok (some cs1)
        | succ :: _ =>
          let cs2 : ConstructState :=
            if (alGet cs1.live_defs_per_node succ).isNone then
              { cs1 with live_defs_per_node := alSet cs1.live_defs_per_node succ [] }
            else cs1
          let m := merge_defs cs2.heap (alGetD cs2.live_defs_per_node succ []) new_defs
          let cs3 : ConstructState := { cs2 with
            heap := m.1
            live_defs_per_node := alSet cs2.live_defs_per_node succ m.2.1 }
          if m.2.2 ∧ (call_depth_limit = none ∨
              (∃ b, call_depth_limit = some b ∧ 0 ≤ new_call_depth ∧ new_call_depth ≤ b)) then
            match worklist_append cfg call_depth_limit wl_fuel (succ, new_call_depth) cs3.wl with
            | none => .ok none
            | some wl => .ok (some { cs3 with wl := wl })
          else
            .ok (some cs3)

/-- Body of the fold over a popped node's final states: threads the
possibly already fuel-exhausted state through `construct_state_step`. -/
def construct_states_step (keep_data : Bool) (arch : Arch) (cfg : CFG)
    (call_depth_limit : Option Int) (wl_fuel : Nat) (node : CFGNode)
    (call_depth : Int) (nstates : Nat) (acc : Option ConstructState)
    (state : SimState) : Except DDGErr (Option ConstructState) :=
  match acc with
  | none => .ok none
  | some cs =>
    construct_state_step keep_data arch cfg call_depth_limit wl_fuel node
      call_depth nstates cs state

/-- The fuelled worklist loop of `DDG._construct` (ddg.py:225). -/
def construct_loop (keep_data : Bool) (arch : Arch) (cfg : CFG)
    (call_depth_limit : Option Int) (wl_fuel : Nat) :
    Nat → ConstructState → Except DDGErr (Option ConstructState)
  | 0, _ => .ok none
  | fuel + 1, cs =>
    match cs.wl.list with
    | [] => .ok (some cs)
    | job :: rest =>
      let cs1 : ConstructState := { cs with wl := ⟨rest, cs.wl.set.erase job.1⟩ }
      let cs2 : ConstructState :=
        if (alGet cs1.live_defs_per_node job.1).isNone then
          { cs1 with live_defs_per_node := alSet cs1.live_defs_per_node job.1 [] }
        else cs1
      match job.1.final_states.foldlM
          (construct_states_step keep_data arch cfg call_depth_limit wl_fuel job.1
            job.2 job.1.final_states.length) (some cs2) with
      | .error e => .error e
      | .ok none => .ok none
      | .ok (some cs3) =>
        construct_loop keep_data arch cfg call_depth_limit wl_fuel fuel cs3

/-- `DDG._construct` (ddg.py:189): seed the worklist with every
zero-in-degree node at depth 0, then run the fixpoint.  Returns `none`
when the fuel is exhausted. -/
def construct (keep_data : Bool) (arch : Arch) (cfg : CFG)
    (call_depth_limit : Option Int) (wl_fuel fuel : Nat) :
    Except DDGErr (Option ConstructState) :=
  match cfg.nodes.foldlM (fun wl n =>
      if cfg.in_degree n = 0 then
        worklist_append cfg call_depth_limit wl_fuel (n, 0) wl
      else
        some wl) (⟨[], []⟩ : Worklist) with
  | none => .ok none
  | some wl0 =>
    construct_loop keep_data arch cfg call_depth_limit wl_fuel fuel
      { heap := [], live_defs_per_node := [], stmt_graph := ⟨[], []⟩
        data_graph := ⟨[], []⟩, wl := wl0 }

/-- Removal of one temporary node in `DDG._simplify_data_graph`
(ddg.py:644-661): snapshot the in/out edges, remove them, splice every
`(pred, node) x (node, succ)` pair with `pred` and `succ` different from
the node into a direct edge labelled with the out-edge's labels laid over
the in-edge's labels, then remove the node.  `splice_pair_step` is the
body of the nested pair loop (ddg.py:654-659), `splice_in_step` the body
of the outer loop over the in-edges. -/
def splice_pair_step (t : ProgramVariable)
    (ein : ProgramVariable × ProgramVariable × Labels)
    (acc2 : DiGraph ProgramVariable)
    (eout : ProgramVariable × ProgramVariable × Labels) : DiGraph ProgramVariable :=
  if ein.1 ≠ t ∧ eout.2.1 ≠ t then
    acc2.add_edge ein.1 eout.2.1 (dUpdate ein.2.2 eout.2.2)
  else acc2

def splice_in_step (t : ProgramVariable)
    (outs : List (ProgramVariable × ProgramVariable × Labels))
    (acc : DiGraph ProgramVariable)
    (ein : ProgramVariable × ProgramVariable × Labels) : DiGraph ProgramVariable :=
  outs.foldl (splice_pair_step t ein) acc

/-- `DDG._simplify_data_graph`, one node's removal (ddg.py:644-661):
snapshot the in/out edges, remove all edges touching the node, splice, and
remove the node. -/
def simplify_remove_tmp (g : DiGraph ProgramVariable) (t : ProgramVariable) :
    DiGraph ProgramVariable :=
  ((g.in_edges t).foldl (splice_in_step t (g.out_edges t))
    (g.removeTouching t)).remove_node t

/-- `DDG._simplify_data_graph` with the removal order made explicit (the
source iterates whatever order `nodes_iter` yields over the temporary
nodes). -/
def simplifyWith (g : DiGraph ProgramVariable) (order : List ProgramVariable) :
    DiGraph ProgramVariable :=
  order.foldl simplify_remove_tmp g

/-- The temporary nodes collected at ddg.py:642. -/
def tmpNodes (g : DiGraph ProgramVariable) : List ProgramVariable :=
  g.nodes.filter (fun n => n.variable_.isTmp)

/-- `DDG._simplify_data_graph` (ddg.py:631): copy the graph and remove
every temporary node (`networkx.DiGraph(data_graph)` is the copy; our
values are immutable). -/
def simplify_data_graph (g : DiGraph ProgramVariable) : DiGraph ProgramVariable :=
  simplifyWith g (tmpNodes g)

/-- Modelled from the spec: a `Function` of the function-index
collaborator, identified with its member blocks' start addresses. -/
structure Function where
  fid : Nat
  blocks : List Nat
  deriving DecidableEq, Repr

/-- The `simrun_addr_to_func` index of
`DDG._build_function_dependency_graphs` (ddg.py:733-736): a dict built by
iterating all functions and their blocks; a later function overwrites an
earlier one on a shared block address. -/
def simrun_block_step (f : Function) (m : List (Nat × Function)) (b : Nat) :
    List (Nat × Function) :=
  alSet m b f

def simrun_func_step (m : List (Nat × Function)) (f : Function) :
    List (Nat × Function) :=
  f.blocks.foldl (simrun_block_step f) m

def simrun_addr_to_func (funcs : List Function) : List (Nat × Function) :=
  funcs.foldl simrun_func_step []

/-- The function the index assigns to a code location's block, if any. -/
def locFunc (funcs : List Function) (loc : CodeLocation) : Option Function :=
  match loc.simrun_addr with
  | none => none
  | some a => alGet (simrun_addr_to_func funcs) a

/-- Add an edge to a function's subgraph in the `defaultdict(DiGraph)`
(ddg.py:742/747). -/
def fdAddEdge (m : List (Function × DiGraph CodeLocation)) (f : Function)
    (src dst : CodeLocation) (lbl : Labels) :
    List (Function × DiGraph CodeLocation) :=
  alSet m f ((alGetD m f ⟨[], []⟩).add_edge src dst lbl)

/-- The per-edge body of the grouping loop of
`DDG._build_function_dependency_graphs` (ddg.py:738-747): attribute the
edge to the function owning its source block and, when different, also to
the function owning its destination block. -/
def build_fd_step (funcs : List Function)
    (m : List (Function × DiGraph CodeLocation))
    (e : CodeLocation × CodeLocation × Labels) :
    List (Function × DiGraph CodeLocation) :=
  let m1 :=
    match locFunc funcs e.1 with
    | some f => fdAddEdge m f e.1 e.2.1 e.2.2
    | none => m
  match locFunc funcs e.2.1 with
  | some fd =>
    if locFunc funcs e.1 = some fd then m1 else fdAddEdge m1 fd e.1 e.2.1 e.2.2
  | none => m1

/-- `DDG._build_function_dependency_graphs` (ddg.py:723). -/
def build_function_dependency_graphs (g : DiGraph CodeLocation)
    (funcs : List Function) : List (Function × DiGraph CodeLocation) :=
  g.edges.foldl (build_fd_step funcs) []

/-- `DDG.function_dependency_graph` (ddg.py:168): `none` is the "not
found" result for a function with no recorded dependencies. -/
def function_dependency_graph (g : DiGraph CodeLocation) (funcs : List Function)
    (f : Function) : Option (DiGraph CodeLocation) :=
  alGet (build_function_dependency_graphs g funcs) f

/-! ### Helper definitions used only to state the claims -/

/-- The variables a single action writes: the register for a register
write, one memory variable per resolved address for a memory write. -/
def writtenVariables (a : SimAction) : List SimVariable :=
  match a.type, a.action with
  | .reg, .write => [.reg a.offset a.data_size]
  | .mem, .write => (addrList a).map (fun ad => SimVariable.mem ad a.data_size)
  | _, _ => []

/-- Every set reference of a live-defs dict points at an allocated heap
cell (true of every dict the Python code builds, where values are actual
set objects). -/
def ldValid (h : Heap) (ld : LiveDefs) : Prop :=
  ∀ p ∈ ld, p.2 < h.length

instance (h : Heap) (ld : LiveDefs) : Decidable (ldValid h ld) := by
  unfold ldValid
  exact inferInstance

/-- `Thru E S u v`: there is an `E`-path from `u` to `v` of length at least
one whose intermediate vertices all satisfy `S`.  This characterises which
direct edges temporary-node elimination creates. -/
inductive Thru (E : ProgramVariable → ProgramVariable → Prop)
    (S : ProgramVariable → Prop) : ProgramVariable → ProgramVariable → Prop where
  | base {u v : ProgramVariable} : E u v → Thru E S u v
  | step {u w v : ProgramVariable} : E u w → S w → Thru E S w v → Thru E S u v

/-- The edge relation of a data graph. -/
def ERel (g : DiGraph ProgramVariable) (u v : ProgramVariable) : Prop :=
  g.hasEdge u v = true

/-- The edge relation after eliminating the single node `t`. -/
def spliceRel (E : ProgramVariable → ProgramVariable → Prop)
    (t : ProgramVariable) (a b : ProgramVariable) : Prop :=
  a ≠ t ∧ b ≠ t ∧ (E a b ∨ (E a t ∧ E t b))

/-- The CFG nodes the scheduler can ever hold in its worklist: the node
list (seeds) and the destinations of edges (pre-expansion and successor
propagation). -/
def relevantNodes (cfg : CFG) : List CFGNode :=
  cfg.nodes ++ cfg.edges.map (fun e => e.2.1)

/-- A scheduler job outside the region `K`: its node is a seed or an edge
destination of the CFG, is not in `K`, and sits at call depth 0. -/
def jobOutside (cfg : CFG) (K : List CFGNode) (j : DDGJob) : Prop :=
  j.1 ∈ relevantNodes cfg ∧ j.1 ∉ K ∧ j.2 = 0

/-- No edge of the statement graph points at a location inside a block of
`K`. -/
def stmtAvoids (K : List CFGNode) (g : DiGraph CodeLocation) : Prop :=
  ∀ u v, (u, v) ∈ g.edgePairs → ∀ m ∈ K, v.simrun_addr ≠ some m.addr

/-- The loop invariant of the depth-bounded construction: every pending
job stays outside `K` at depth 0, and the statement graph avoids `K`. -/
def constructOutside (cfg : CFG) (K : List CFGNode) (cs : ConstructState) : Prop :=
  (∀ j ∈ cs.wl.list, jobOutside cfg K j) ∧ stmtAvoids K cs.stmt_graph

/-- Does the per-function subgraph of `f` contain the edge `(s, d)`? -/
def fdgHasEdge (g : DiGraph CodeLocation) (funcs : List Function) (f : Function)
    (s d : CodeLocation) : Bool :=
  match function_dependency_graph g funcs f with
  | some G => G.hasEdge s d
  | none => false

/-- Did a fuelled `construct` run to completion? -/
def constructCompleted (r : Except DDGErr (Option ConstructState)) : Bool :=
  match r with
  | .ok (some _) => true
  | _ => false

/-- The final stored reaching-definition set of `v` entering `n`, read out
of a completed run. -/
def finalNodeVarLocs (r : Except DDGErr (Option ConstructState)) (n : CFGNode)
    (v : SimVariable) : List CodeLocation :=
  match r with
  | .ok (some cs) => liveDefsSet cs.heap (alGetD cs.live_defs_per_node n []) v
  | _ => []

/-- The statement-graph edge pairs of a completed run. -/
def finalStmtPairs (r : Except DDGErr (Option ConstructState)) :
    List (CodeLocation × CodeLocation) :=
  match r with
  | .ok (some cs) => cs.stmt_graph.edgePairs
  | _ => []

/-! ### Concrete example data -/

/-- An architecture with no known registers (register sizes then always
resolve to 1, so traces that never touch memory register-dependencies
cannot fail on size lookup). -/
def archEmpty : Arch := ⟨[], [], none⟩

/-- An architecture shaped like `archinfo`'s: two registers of different
sizes and no `register_name` attribute. -/
def archTwoRegs : Arch :=
  ⟨[(0, "a"), (8, "b")], [("a", (0, 4)), ("b", (8, 8))], none⟩

/-- The same architecture as if the object carried a `register_name`
attribute with value `"a"`. -/
def archTwoRegsAttr : Arch :=
  ⟨[(0, "a"), (8, "b")], [("a", (0, 4)), ("b", (8, 8))], some "a"⟩

/-- A register write action of offset 8 in block `bbl`, statement `st`. -/
def wAct (bbl st : Nat) : SimAction :=
  { type := .reg, action := .write, bbl_addr := some bbl, stmt_idx := some st
    offset := 8, data_size := 64 }

/-- A register read action of offset 8 in block `bbl`, statement `st`. -/
def rAct (bbl st : Nat) : SimAction :=
  { type := .reg, action := .read, bbl_addr := some bbl, stmt_idx := some st
    offset := 8, data_size := 64 }

def locOf (bbl st : Nat) : CodeLocation := ⟨some bbl, some st, none, none⟩

/-- The synthetic node trace of the kill-on-write test: two sequential
writes of the same register followed by a read of it. -/
def traceWWR : SimState := ⟨.ordinary, none, [wAct 7 0, wAct 7 1, rAct 7 2]⟩

/-- Diamond CFG for the merge-on-propagation test: two entry nodes A and B
both write register 8 and both fall through to the join node S. -/
def nodeA2 : CFGNode := ⟨0, 10, [⟨.ordinary, some 12, [wAct 10 0]⟩]⟩

def nodeB2 : CFGNode := ⟨1, 11, [⟨.ordinary, some 12, [wAct 11 0]⟩]⟩

def nodeS2 : CFGNode := ⟨2, 12, [⟨.ordinary, none, []⟩]⟩

def cfgC2 : CFG :=
  ⟨[nodeA2, nodeB2, nodeS2], [(nodeA2, nodeS2, .ordinary), (nodeB2, nodeS2, .ordinary)]⟩

/-- CFG exhibiting the shared-set aliasing: A defines register 8 and flows
to P; P propagates A's definition unchanged to the join S; Q also defines
register 8 and flows to S. -/
def nodeA9 : CFGNode := ⟨0, 10, [⟨.ordinary, some 11, [wAct 10 0]⟩]⟩

def nodeP9 : CFGNode := ⟨1, 11, [⟨.ordinary, some 12, []⟩]⟩

def nodeS9 : CFGNode := ⟨2, 12, [⟨.ordinary, none, []⟩]⟩

def nodeQ9 : CFGNode := ⟨3, 13, [⟨.ordinary, some 12, [wAct 13 0]⟩]⟩

def cfgC9 : CFG :=
  ⟨[nodeA9, nodeP9, nodeS9, nodeQ9],
   [(nodeA9, nodeP9, .ordinary), (nodeP9, nodeS9, .ordinary), (nodeQ9, nodeS9, .ordinary)]⟩

/-- Caller/callee CFG for the depth-bound test: node 1 calls node 2. -/
def nodeCaller : CFGNode := ⟨0, 1, [⟨.call, some 2, [wAct 1 0, rAct 1 1]⟩]⟩

def nodeCallee : CFGNode := ⟨1, 2, [⟨.ret, none, [wAct 2 0, rAct 2 1]⟩]⟩

def cfgC6 : CFG := ⟨[nodeCaller, nodeCallee], [(nodeCaller, nodeCallee, .call)]⟩

/-- Data-graph nodes for the simplifier examples. -/
def pvRA : ProgramVariable := ⟨.reg 0 8, locOf 1 0⟩

def pvRB : ProgramVariable := ⟨.reg 8 8, locOf 1 1⟩

def pvT1 : ProgramVariable := ⟨.tmp 1, locOf 1 0⟩

def pvT2 : ProgramVariable := ⟨.tmp 2, locOf 1 1⟩

/-- Simplifier input with a pre-existing direct edge `A -> B` next to the
spliced path `A -> T1 -> B`. -/
def gPre : DiGraph ProgramVariable :=
  ⟨[pvRA, pvRB, pvT1],
   [(pvRA, pvRB, [("foo", .n 5)]), (pvRA, pvT1, []), (pvT1, pvRB, [])]⟩

/-- Simplifier input `reg A -> tmp T1 -> reg B`, labels overlapping on the
key `"type"`. -/
def gChain : DiGraph ProgramVariable :=
  ⟨[pvRA, pvT1, pvRB],
   [(pvRA, pvT1, [("type", .s "reg"), ("k1", .n 1)]),
    (pvT1, pvRB, [("type", .s "mem_data"), ("k2", .n 2)])]⟩

/-- Simplifier input with two temporary paths from A to B whose labels
conflict on the key `"t"`. -/
def gTwoPaths : DiGraph ProgramVariable :=
  ⟨[pvRA, pvRB, pvT1, pvT2],
   [(pvRA, pvT1, [("t", .s "X")]), (pvT1, pvRB, []),
    (pvRA, pvT2, [("t", .s "Y")]), (pvT2, pvRB, [])]⟩

/-- The empty scan state a track run starts from. -/
def stInit : TrackState :=
  { heap := [], live_defs := [], temp_defs := [], temp_variables := []
    temps_to_edges := [], regs_to_edges := [], last_statement_id := none
    data_read := [], pv_leak := none, stmt_graph := ⟨[], []⟩, data_graph := ⟨[], []⟩ }

/-- Concrete statement graph with one edge, for the idempotence witness. -/
def gsC3 : DiGraph CodeLocation :=
  ⟨[locOf 1 0, locOf 1 1], [(locOf 1 0, locOf 1 1, [("type", .s "reg")])]⟩

/-- Concrete data graph with one edge, for the idempotence witness. -/
def gdC3 : DiGraph ProgramVariable := ⟨[pvRA, pvRB], [(pvRA, pvRB, [])]⟩

/-- Two disjoint functions and one function with no dependencies, for the
function-projection witness. -/
def funcF : Function := ⟨0, [10]⟩

def funcG : Function := ⟨1, [20]⟩

def funcH : Function := ⟨2, [30]⟩

/-- A statement graph with a cross-function edge (blocks 10 and 20) and an
edge out of block 10 into an unknown block. -/
def gC8 : DiGraph CodeLocation :=
  ⟨[locOf 10 0, locOf 20 0, locOf 10 1, locOf 99 0],
   [(locOf 10 0, locOf 20 0, [("type", .s "reg")]),
    (locOf 10 1, locOf 99 0, [])]⟩

/-! ### Association-list and heap lemmas -/

theorem alGet_alSet_self {κ ν : Type} [DecidableEq κ] (l : List (κ × ν)) (k : κ) (v : ν) :
    alGet (alSet l k v) k = some v := by
  induction l with
  | nil => simp [alGet, alSet]
  | cons p t ih =>
    by_cases h : p.1 = k
    · simp [alSet, h, alGet]
    · simpa [alSet, h, alGet] using ih

theorem alGet_alSet_ne {κ ν : Type} [DecidableEq κ] (l : List (κ × ν)) {k k' : κ} (v : ν)
    (hk : k' ≠ k) : alGet (alSet l k v) k' = alGet l k' := by
  induction l with
  | nil => simp [alGet, alSet, Ne.symm hk]
  | cons p t ih =>
    by_cases h : p.1 = k
    · simp [alSet, h, alGet, Ne.symm hk]
    · simp only [alSet, if_neg h, alGet]
      by_cases h2 : p.1 = k'
      · simp [h2]
      · simp [h2, ih]

theorem alGet_eq_none_iff {κ ν : Type} [DecidableEq κ] (l : List (κ × ν)) (k : κ) :
    alGet l k = none ↔ ∀ p ∈ l, p.1 ≠ k := by
  induction l with
  | nil => simp [alGet]
  | cons p t ih =>
    by_cases h : p.1 = k
    · simp [alGet, h]
    · simp [alGet, h, ih]

theorem mem_alSet {κ ν : Type} [DecidableEq κ] (l : List (κ × ν)) (k : κ) (v : ν) :
    ∀ q ∈ alSet l k v, q = (k, v) ∨ q ∈ l := by
  induction l with
  | nil => simp [alSet]
  | cons p t ih =>
    by_cases h : p.1 = k
    · intro q hq
      simp [alSet, h] at hq
      rcases hq with hq | hq
      · exact Or.inl (by simp [hq])
      · exact Or.inr (by simp [hq])
    · intro q hq
      simp [alSet, h] at hq
      rcases hq with hq | hq
      · exact Or.inr (by simp [hq])
      · rcases ih q hq with h1 | h1
        · exact Or.inl h1
        · exact Or.inr (by simp [h1])

theorem alGet_mem {κ ν : Type} [DecidableEq κ] (l : List (κ × ν)) (k : κ) (v : ν)
    (h : alGet l k = some v) : (k, v) ∈ l := by
  induction l with
  | nil => simp [alGet] at h
  | cons p t ih =>
    cases p with
    | mk a b =>
      by_cases hp : a = k
      · simp [alGet, hp] at h
        subst hp
        subst h
        simp
      · simp [alGet, hp] at h
        exact List.mem_cons_of_mem _ (ih h)

theorem length_heapAdd (h : Heap) (r : Nat) (loc : CodeLocation) :
    (heapAdd h r loc).length = h.length := by
  simp [heapAdd]

theorem heapGet_append_lt (h : Heap) (x : List CodeLocation) {r : Nat}
    (hr : r < h.length) : heapGet (h ++ [x]) r = heapGet h r := by
  simp [heapGet, List.getD, List.getElem?_append_left hr]

theorem heapGet_append_self (h : Heap) (x : List CodeLocation) :
    heapGet (h ++ [x]) h.length = x := by
  simp [heapGet, List.getD]

theorem heapGet_heapAdd_self (h : Heap) {r : Nat} (loc : CodeLocation)
    (hr : r < h.length) : heapGet (heapAdd h r loc) r = heapGet h r ++ [loc] := by
  simp [heapAdd, heapGet, List.getD, List.getElem?_set_self hr]

theorem heapGet_heapAdd_ne (h : Heap) {r r' : Nat} (loc : CodeLocation)
    (hne : r' ≠ r) : heapGet (heapAdd h r loc) r' = heapGet h r' := by
  simp [heapAdd, heapGet, List.getD, List.getElem?_set_ne (fun hc => hne hc.symm)]

theorem heapGet_heapAdd_subset (h : Heap) (r r' : Nat) (loc : CodeLocation) :
    ∀ x ∈ heapGet h r, x ∈ heapGet (heapAdd h r' loc) r := by
  intro x hx
  by_cases hrr : r' = r
  · subst hrr
    by_cases hr : r' < h.length
    · rw [heapGet_heapAdd_self h loc hr]
      exact List.mem_append_left _ hx
    · have : heapAdd h r' loc = h := by
        simp [heapAdd, List.set_eq_of_length_le (Nat.le_of_not_lt hr)]
      rw [this]
      exact hx
  · rw [heapGet_heapAdd_ne h loc (fun hc => hrr hc.symm)]
    exact hx

theorem mem_heapGet_heapAdd (h : Heap) {r : Nat} (loc : CodeLocation)
    (hr : r < h.length) : loc ∈ heapGet (heapAdd h r loc) r := by
  rw [heapGet_heapAdd_self h loc hr]
  exact List.mem_append_right _ (by simp)

/-! ### Graph lemmas -/

namespace DiGraph

variable {α : Type} [DecidableEq α]

theorem hasEdge_iff_pairs (g : DiGraph α) (u v : α) :
    g.hasEdge u v = true ↔ (u, v) ∈ g.edgePairs := by
  simp only [hasEdge, edgePairs, List.any_eq_true, Bool.and_eq_true,
    decide_eq_true_eq, List.mem_map]
  constructor
  · rintro ⟨e, he, h1, h2⟩
    exact ⟨e, he, by simp [h1, h2]⟩
  · rintro ⟨e, he, hp⟩
    exact ⟨e, he, by simp [Prod.ext_iff] at hp; exact hp⟩

theorem edges_add_node (g : DiGraph α) (x : α) : (g.add_node x).edges = g.edges := by
  unfold add_node
  split <;> rfl

theorem nodes_add_node (g : DiGraph α) (x : α) (hx : x ∈ g.nodes) :
    (g.add_node x).nodes = g.nodes := by
  unfold add_node
  simp [hx]

theorem edgePairs_add_edge (g : DiGraph α) (a b : α) (lbl : Labels) (u v : α) :
    (u, v) ∈ (g.add_edge a b lbl).edgePairs ↔
      (u, v) ∈ g.edgePairs ∨ (u = a ∧ v = b) := by
  unfold add_edge
  have hedges : ((g.add_node a).add_node b).edges = g.edges := by
    rw [edges_add_node, edges_add_node]
  by_cases hE : ((g.add_node a).add_node b).hasEdge a b = true
  · simp only [hE, if_true]
    have hpairs : ({ (g.add_node a).add_node b with
        edges := ((g.add_node a).add_node b).edges.map (fun e =>
          if e.1 = a ∧ e.2.1 = b then (e.1, e.2.1, dUpdate e.2.2 lbl) else e) } :
          DiGraph α).edgePairs = g.edgePairs := by
      show (((g.add_node a).add_node b).edges.map _).map _ = _
      rw [List.map_map, hedges]
      apply List.map_congr_left
      intro e _
      by_cases he : e.1 = a ∧ e.2.1 = b <;> simp [he, Function.comp]
    rw [hpairs]
    constructor
    · exact Or.inl
    · rintro (h | ⟨h1, h2⟩)
      · exact h
      · subst h1; subst h2
        rw [hasEdge_iff_pairs] at hE
        have hne : ((g.add_node u).add_node v).edgePairs = g.edgePairs := by
          unfold edgePairs
          rw [hedges]
        rw [hne] at hE
        exact hE
  · simp only [hE, if_false]
    show (u, v) ∈ (((g.add_node a).add_node b).edges ++ [(a, b, lbl)]).map _ ↔ _
    rw [List.map_append, hedges]
    simp [edgePairs, Prod.ext_iff]

theorem hasEdge_add_edge (g : DiGraph α) (a b : α) (lbl : Labels) (u v : α) :
    (g.add_edge a b lbl).hasEdge u v = true ↔
      (g.hasEdge u v = true ∨ (u = a ∧ v = b)) := by
  rw [hasEdge_iff_pairs, hasEdge_iff_pairs, edgePairs_add_edge]

theorem edgePairs_removeTouching (g : DiGraph α) (t u v : α) :
    (u, v) ∈ (g.removeTouching t).edgePairs ↔
      ((u, v) ∈ g.edgePairs ∧ u ≠ t ∧ v ≠ t) := by
  simp only [removeTouching, edgePairs, List.mem_map, List.mem_filter,
    Bool.and_eq_true, decide_eq_true_eq, Prod.ext_iff]
  constructor
  · rintro ⟨e, ⟨he, h1, h2⟩, h3, h4⟩
    subst h3; subst h4
    exact ⟨⟨e, he, by simp⟩, h1, h2⟩
  · rintro ⟨⟨e, he, h3, h4⟩, h1, h2⟩
    subst h3; subst h4
    exact ⟨e, ⟨he, h1, h2⟩, by simp⟩

theorem edgePairs_remove_node (g : DiGraph α) (t u v : α) :
    (u, v) ∈ (g.remove_node t).edgePairs ↔
      ((u, v) ∈ g.edgePairs ∧ u ≠ t ∧ v ≠ t) := by
  have : (g.remove_node t).edges = (g.removeTouching t).edges := rfl
  show (u, v) ∈ (g.remove_node t).edges.map _ ↔ _
  rw [this]
  exact edgePairs_removeTouching g t u v

end DiGraph

theorem edgePairs_annotate_one (k v : String) (g : DiGraph CodeLocation)
    (p : CodeLocation × CodeLocation) :
    (annotate_one k v g p).edgePairs = g.edgePairs := by
  unfold annotate_one
  split
  · show (g.edges.map _).map _ = _
    rw [List.map_map]
    apply List.map_congr_left
    intro e _
    by_cases he : e.1 = p.1 ∧ e.2.1 = p.2 <;> simp [he, Function.comp]
  · rfl

theorem nodes_annotate_one (k v : String) (g : DiGraph CodeLocation)
    (p : CodeLocation × CodeLocation) :
    (annotate_one k v g p).nodes = g.nodes := by
  unfold annotate_one
  split <;> rfl

theorem edgePairs_stmt_annotate (g : DiGraph CodeLocation)
    (ps : List (CodeLocation × CodeLocation)) (k v : String) :
    (stmt_graph_annotate_edges g ps k v).edgePairs = g.edgePairs := by
  induction ps generalizing g with
  | nil => rfl
  | cons p t ih =>
    show (stmt_graph_annotate_edges (annotate_one k v g p) t k v).edgePairs = _
    rw [ih, edgePairs_annotate_one]

theorem edgePairs_stmt_add (g : DiGraph CodeLocation) (s d : CodeLocation)
    (lbl : Labels) (u v : CodeLocation) :
    (u, v) ∈ (stmt_graph_add_edge g s d lbl).edgePairs ↔
      ((u, v) ∈ g.edgePairs ∨ (u = s ∧ v = d)) := by
  unfold stmt_graph_add_edge
  split
  · rename_i hguard
    constructor
    · exact Or.inl
    · rintro (h | ⟨h1, h2⟩)
      · exact h
      · subst h1; subst h2
        exact (DiGraph.hasEdge_iff_pairs g u v).mp hguard.2
  · exact DiGraph.edgePairs_add_edge g s d lbl u v

theorem edgePairs_data_add (g : DiGraph ProgramVariable) (s d : ProgramVariable)
    (lbl : Labels) (u v : ProgramVariable) :
    (u, v) ∈ (data_graph_add_edge g s d lbl).edgePairs ↔
      ((u, v) ∈ g.edgePairs ∨ (u = s ∧ v = d)) := by
  unfold data_graph_add_edge
  split
  · rename_i hguard
    constructor
    · exact Or.inl
    · rintro (h | ⟨h1, h2⟩)
      · exact h
      · subst h1; subst h2
        exact (DiGraph.hasEdge_iff_pairs g u v).mp hguard.2
  · exact DiGraph.edgePairs_add_edge g s d lbl u v

/-- In a graph whose `(src, dst)` pairs are duplicate-free, a present pair
is matched by exactly one edge. -/
theorem filter_pair_length_one {α : Type} [DecidableEq α] :
    ∀ (l : List (α × α × Labels)) (u v : α) (lb : Labels),
      (l.map (fun e => (e.1, e.2.1))).Nodup → (u, v, lb) ∈ l →
      (l.filter (fun e => decide (e.1 = u) && decide (e.2.1 = v))).length = 1 := by
  intro l
  induction l with
  | nil => intro u v lb _ hm; simp at hm
  | cons e t ih =>
    intro u v lb hnd hm
    rw [List.map_cons, List.nodup_cons] at hnd
    rcases List.mem_cons.mp hm with he | ht
    · have hpred : (decide (e.1 = u) && decide (e.2.1 = v)) = true := by
        rw [← he]; simp
      have hrest : t.filter (fun e => decide (e.1 = u) && decide (e.2.1 = v)) = [] := by
        rw [List.filter_eq_nil_iff]
        intro x hx
        simp only [Bool.and_eq_true, decide_eq_true_eq, not_and]
        intro h1 h2
        exact absurd (by
          have he1 : e.1 = u := by rw [← he]
          have he2 : e.2.1 = v := by rw [← he]
          rw [he1, he2, ← h1, ← h2]
          exact List.mem_map_of_mem _ hx) hnd.1
      simp [List.filter_cons, hpred, hrest]
    · have hpred : (decide (e.1 = u) && decide (e.2.1 = v)) = false := by
        by_contra hc
        have : (decide (e.1 = u) && decide (e.2.1 = v)) = true := by
          revert hc
          cases (decide (e.1 = u) && decide (e.2.1 = v)) <;> simp
        simp only [Bool.and_eq_true, decide_eq_true_eq] at this
        exact hnd.1 (by
          rw [this.1, this.2]
          exact List.mem_map_of_mem _ ht)
      simp only [List.filter_cons, hpred]
      exact ih u v lb hnd.2 ht

/-- Auxiliary fold invariant for `def_lookup` with `keep_data = false`:
over duplicate-free location lists every produced label has `count = 0`. -/
theorem def_lookup_count_zero_aux (v : SimVariable) :
    ∀ (locs : List CodeLocation) (acc : List (CodeLocation × Labels))
      (seen : List CodeLocation) (pd : List (CodeLocation × Labels)),
      locs.Nodup → (∀ loc ∈ locs, loc ∉ seen) →
      (∀ p ∈ acc, p.1 ∈ seen ∧ dGet p.2 "count" = some (.n 0)) →
      locs.foldlM (def_lookup_step false v) acc = Except.ok pd →
      ∀ p ∈ pd, dGet p.2 "count" = some (.n 0) := by
  intro locs
  induction locs with
  | nil =>
    intro acc seen pd _ _ hacc hfold
    simp only [List.foldlM_nil] at hfold
    cases hfold
    exact fun p hp => (hacc p hp).2
  | cons loc rest ih =>
    intro acc seen pd hnd hseen hacc hfold
    rw [List.nodup_cons] at hnd
    have hget : alGet acc loc = none := by
      rw [alGet_eq_none_iff]
      intro p hp hc
      exact (hseen loc (by simp)) (hc ▸ (hacc p hp).1)
    cases v with
    | tmp i =>
      have hred : List.foldlM (def_lookup_step false (SimVariable.tmp i)) acc (loc :: rest) =
          Except.error DDGErr.unknownVariableType := rfl
      rw [hred] at hfold
      exact Except.noConfusion hfold
    | const =>
      have hred : List.foldlM (def_lookup_step false SimVariable.const) acc (loc :: rest) =
          Except.error DDGErr.unknownVariableType := rfl
      rw [hred] at hfold
      exact Except.noConfusion hfold
    | mem a s =>
      have hstep : def_lookup_step false (SimVariable.mem a s) acc loc =
          Except.ok (alSet acc loc [("type", .s "mem"), ("count", .n 0)]) := by
        unfold def_lookup_step
        rw [hget]
        rfl
      have hred : List.foldlM (def_lookup_step false (SimVariable.mem a s)) acc (loc :: rest) =
          List.foldlM (def_lookup_step false (SimVariable.mem a s))
            (alSet acc loc [("type", .s "mem"), ("count", .n 0)]) rest := by
        rw [List.foldlM_cons, hstep]
        rfl
      rw [hred] at hfold
      refine ih _ (loc :: seen) pd hnd.2 ?_ ?_ hfold
      · intro l' hl'
        simp only [List.mem_cons, not_or]
        exact ⟨fun hc => hnd.1 (hc ▸ hl'), hseen l' (List.mem_cons_of_mem _ hl')⟩
      · intro p hp
        rcases mem_alSet _ _ _ p hp with hpe | hpa
        · subst hpe
          exact ⟨by simp, by rfl⟩
        · exact ⟨List.mem_cons_of_mem _ (hacc p hpa).1, (hacc p hpa).2⟩
    | reg o s =>
      have hstep : def_lookup_step false (SimVariable.reg o s) acc loc =
          Except.ok (alSet acc loc [("type", .s "reg"), ("count", .n 0)]) := by
        unfold def_lookup_step
        rw [hget]
        rfl
      have hred : List.foldlM (def_lookup_step false (SimVariable.reg o s)) acc (loc :: rest) =
          List.foldlM (def_lookup_step false (SimVariable.reg o s))
            (alSet acc loc [("type", .s "reg"), ("count", .n 0)]) rest := by
        rw [List.foldlM_cons, hstep]
        rfl
      rw [hred] at hfold
      refine ih _ (loc :: seen) pd hnd.2 ?_ ?_ hfold
      · intro l' hl'
        simp only [List.mem_cons, not_or]
        exact ⟨fun hc => hnd.1 (hc ▸ hl'), hseen l' (List.mem_cons_of_mem _ hl')⟩
      · intro p hp
        rcases mem_alSet _ _ _ p hp with hpe | hpa
        · subst hpe
          exact ⟨by simp, by rfl⟩
        · exact ⟨List.mem_cons_of_mem _ (hacc p hpa).1, (hacc p hpa).2⟩

/-! ### Fold-invariant combinators -/

/-- A transitive step-preserved relation holds across an `Except`-valued
fold. -/
theorem foldlM_except_invariant {β σ : Type} (f : σ → β → Except DDGErr σ)
    (Q : σ → σ → Prop) (hrefl : ∀ s, Q s s)
    (htrans : ∀ x y z, Q x y → Q y z → Q x z)
    (hstep : ∀ s b s', f s b = .ok s' → Q s s') :
    ∀ (l : List β) (s s' : σ), l.foldlM f s = .ok s' → Q s s' := by
  intro l
  induction l with
  | nil =>
    intro s s' h
    rw [List.foldlM_nil] at h
    cases h
    exact hrefl s
  | cons b t ih =>
    intro s s' h
    rw [List.foldlM_cons] at h
    cases hf : f s b with
    | error e =>
      rw [hf] at h
      exact Except.noConfusion h
    | ok s1 =>
      rw [hf] at h
      have h2 : t.foldlM f s1 = .ok s' := h
      exact htrans _ _ _ (hstep s b s1 hf) (ih s1 s' h2)

/-- A transitive step-preserved relation holds across a pure fold. -/
theorem foldl_invariant {β σ : Type} (f : σ → β → σ) (Q : σ → σ → Prop)
    (hrefl : ∀ s, Q s s) (htrans : ∀ x y z, Q x y → Q y z → Q x z)
    (hstep : ∀ s b, Q s (f s b)) :
    ∀ (l : List β) (s : σ), Q s (l.foldl f s) := by
  intro l
  induction l with
  | nil => intro s; exact hrefl s
  | cons b t ih =>
    intro s
    exact htrans _ _ _ (hstep s b) (ih (f s b))

/-! ### Step-preservation lemmas for the tracker -/

/-- `reg_tmp_dep_step` touches only the data graph. -/
theorem reg_tmp_dep_step_preserves (st : TrackState) (tmp : Nat) (st' : TrackState)
    (h : reg_tmp_dep_step st tmp = .ok st') :
    st'.heap = st.heap ∧ st'.live_defs = st.live_defs ∧
      st'.stmt_graph = st.stmt_graph := by
  unfold reg_tmp_dep_step at h
  cases h1 : alGet st.temp_variables tmp with
  | none => rw [h1] at h; cases h; exact ⟨rfl, rfl, rfl⟩
  | some tv =>
    rw [h1] at h
    cases h2 : st.pv_leak with
    | none => rw [h2] at h; exact Except.noConfusion h
    | some pv => rw [h2] at h; cases h; exact ⟨rfl, rfl, rfl⟩

/-- `mem_reg_dep_step` touches only the statement graph. -/
theorem mem_reg_dep_step_preserves (keep_data : Bool) (arch : Arch) (s : String)
    (st : TrackState) (b : Nat) (st' : TrackState)
    (h : mem_reg_dep_step keep_data arch s st b = .ok st') :
    st'.heap = st.heap ∧ st'.live_defs = st.live_defs ∧
      st'.data_graph = st.data_graph ∧ st'.stmt_graph.edgePairs = st.stmt_graph.edgePairs := by
  unfold mem_reg_dep_step at h
  cases hsz : get_register_size arch b with
  | error e =>
    rw [hsz] at h
    exact Except.noConfusion h
  | ok sz =>
    rw [hsz] at h
    dsimp only at h
    cases hdl : def_lookup keep_data st.heap st.live_defs (.reg b sz) with
    | error e =>
      rw [hdl] at h
      exact Except.noConfusion h
    | ok pd =>
      rw [hdl] at h
      dsimp only at h
      by_cases hpd : pd = []
      · rw [if_pos hpd] at h
        cases h
        exact ⟨rfl, rfl, rfl, edgePairs_stmt_annotate _ _ _ _⟩
      · rw [if_neg hpd] at h
        exact Except.noConfusion h

/-- `mem_tmp_dep_step` touches only the graphs, and only adds statement
pairs never. -/
theorem mem_tmp_dep_step_preserves (s : String) (pv : ProgramVariable)
    (st : TrackState) (tmp : Nat) :
    (mem_tmp_dep_step s pv st tmp).heap = st.heap ∧
      (mem_tmp_dep_step s pv st tmp).live_defs = st.live_defs ∧
      (mem_tmp_dep_step s pv st tmp).stmt_graph.edgePairs = st.stmt_graph.edgePairs := by
  unfold mem_tmp_dep_step
  cases h : alGet st.temp_variables tmp <;>
    simp [h, edgePairs_stmt_annotate]

/-- The dependency-annotation stages never change the heap or the live
definitions. -/
theorem track_mem_deps_preserves (keep_data : Bool) (arch : Arch) (a : SimAction)
    (pv : ProgramVariable) (st1 st' : TrackState)
    (h : track_mem_deps keep_data arch a pv st1 = .ok st') :
    st'.heap = st1.heap ∧ st'.live_defs = st1.live_defs := by
  have hQ : ∀ (dep : String) (l : List Nat) (x y : TrackState),
      l.foldlM (mem_reg_dep_step keep_data arch dep) x = .ok y →
      y.heap = x.heap ∧ y.live_defs = x.live_defs := by
    intro dep l x y hxy
    exact foldlM_except_invariant (mem_reg_dep_step keep_data arch dep)
      (fun x y => y.heap = x.heap ∧ y.live_defs = x.live_defs)
      (fun _ => ⟨rfl, rfl⟩)
      (fun x y z hxy hyz => ⟨hyz.1.trans hxy.1, hyz.2.trans hxy.2⟩)
      (fun x b y hy => ⟨(mem_reg_dep_step_preserves _ _ _ _ _ _ hy).1,
        (mem_reg_dep_step_preserves _ _ _ _ _ _ hy).2.1⟩) _ _ _ hxy
  have hP : ∀ (dep : String) (l : List Nat) (x : TrackState),
      (l.foldl (mem_tmp_dep_step dep pv) x).heap = x.heap ∧
        (l.foldl (mem_tmp_dep_step dep pv) x).live_defs = x.live_defs := by
    intro dep l x
    exact foldl_invariant (mem_tmp_dep_step dep pv)
      (fun x y => y.heap = x.heap ∧ y.live_defs = x.live_defs)
      (fun _ => ⟨rfl, rfl⟩)
      (fun x y z hxy hyz => ⟨hyz.1.trans hxy.1, hyz.2.trans hxy.2⟩)
      (fun x b => ⟨(mem_tmp_dep_step_preserves _ _ x b).1,
        (mem_tmp_dep_step_preserves _ _ x b).2.1⟩) l x
  unfold track_mem_deps at h
  cases hf1 : a.addr_reg_deps.foldlM (mem_reg_dep_step keep_data arch "mem_addr") st1 with
  | error e => rw [hf1] at h; exact Except.noConfusion h
  | ok st2 =>
    rw [hf1] at h
    dsimp only at h
    cases hf2 : a.data_reg_deps.foldlM (mem_reg_dep_step keep_data arch "mem_data")
        (a.addr_tmp_deps.foldl (mem_tmp_dep_step "mem_addr" pv) st2) with
    | error e => rw [hf2] at h; exact Except.noConfusion h
    | ok st4 =>
      rw [hf2] at h
      dsimp only at h
      cases h
      have q1 := hQ "mem_addr" a.addr_reg_deps st1 st2 hf1
      have q2 := hP "mem_addr" a.addr_tmp_deps st2
      have q3 := hQ "mem_data" a.data_reg_deps _ st4 hf2
      have q4 := hP "mem_data" a.data_tmp_deps st4
      constructor
      · exact q4.1.trans (q3.1.trans (q2.1.trans q1.1))
      · exact q4.2.trans (q3.2.trans (q2.2.trans q1.2))

/-- Effect of one write iteration of the memory branch on the heap and the
live definitions: the address's variable is rebound to a fresh singleton
set, everything else is framed. -/
theorem track_mem_one_write_effect (keep_data : Bool) (arch : Arch)
    (a : SimAction) (cur : CodeLocation) (st : TrackState) (addr : Nat)
    (st' : TrackState) (ha : a.action = .write)
    (h : track_mem_one keep_data arch a cur st addr = .ok st') :
    (∀ r, r < st.heap.length → heapGet st'.heap r = heapGet st.heap r) ∧
    st.heap.length < st'.heap.length ∧
    (∀ w, w ≠ SimVariable.mem addr a.data_size →
      alGet st'.live_defs w = alGet st.live_defs w) ∧
    (∃ r, alGet st'.live_defs (SimVariable.mem addr a.data_size) = some r ∧
      r < st'.heap.length ∧ heapGet st'.heap r = [cur]) := by
  unfold track_mem_one at h
  rw [ha] at h
  dsimp only at h
  have hp := track_mem_deps_preserves _ _ _ _ _ _ h
  have hh : st'.heap = st.heap ++ [[cur]] := hp.1
  have hl : st'.live_defs =
      alSet st.live_defs (SimVariable.mem addr a.data_size) st.heap.length := hp.2
  refine ⟨?_, ?_, ?_, ?_⟩
  · intro r hr
    rw [hh]
    exact heapGet_append_lt st.heap [cur] hr
  · rw [hh]
    simp
  · intro w hw
    rw [hl]
    exact alGet_alSet_ne _ _ hw
  · refine ⟨st.heap.length, ?_, ?_, ?_⟩
    · rw [hl]
      exact alGet_alSet_self _ _ _
    · rw [hh]
      simp
    · rw [hh]
      exact heapGet_append_self st.heap [cur]

/-- Folding the per-address memory-write body over any address list leaves
every processed address's variable bound to the singleton set of the
current location. -/
theorem mem_write_fold_killed (keep_data : Bool) (arch : Arch) (a : SimAction)
    (cur : CodeLocation) (ha : a.action = .write) :
    ∀ (l : List Nat) (st st' : TrackState),
      l.foldlM (track_mem_one keep_data arch a cur) st = .ok st' →
      ∀ ad, ((∃ r, alGet st.live_defs (SimVariable.mem ad a.data_size) = some r ∧
                r < st.heap.length ∧ heapGet st.heap r = [cur]) ∨ ad ∈ l) →
        ∃ r, alGet st'.live_defs (SimVariable.mem ad a.data_size) = some r ∧
          r < st'.heap.length ∧ heapGet st'.heap r = [cur] := by
  intro l
  induction l with
  | nil =>
    intro st st' h ad had
    rw [List.foldlM_nil] at h
    cases h
    rcases had with hest | hmem
    · exact hest
    · simp at hmem
  | cons addr rest ih =>
    intro st st' h ad had
    rw [List.foldlM_cons] at h
    cases hf : track_mem_one keep_data arch a cur st addr with
    | error e =>
      rw [hf] at h
      exact Except.noConfusion h
    | ok s1 =>
      rw [hf] at h
      have h2 : rest.foldlM (track_mem_one keep_data arch a cur) s1 = .ok st' := h
      have eff := track_mem_one_write_effect keep_data arch a cur st addr s1 ha hf
      apply ih s1 st' h2 ad
      rcases had with ⟨r, hget, hlt, hcell⟩ | hmem
      · by_cases hadeq : ad = addr
        · subst hadeq
          exact Or.inl eff.2.2.2
        · refine Or.inl ⟨r, ?_, ?_, ?_⟩
          · rw [eff.2.2.1 _ (by simp [hadeq])]
            exact hget
          · exact hlt.trans eff.2.1
          · rw [eff.1 r hlt]
            exact hcell
      · rcases List.mem_cons.mp hmem with h1 | h1
        · subst h1
          exact Or.inl eff.2.2.2
        · exact Or.inr h1

/-! ### Merge lemmas -/

theorem merge_inner_fold_target (tref : Nat) (ls : List CodeLocation) :
    ∀ acc, (ls.foldl (merge_inner_step tref) acc).2.1 = acc.2.1 := by
  induction ls with
  | nil => intro acc; rfl
  | cons l rest ih =>
    intro acc
    rw [List.foldl_cons]
    rw [ih (merge_inner_step tref acc l)]
    unfold merge_inner_step
    split <;> rfl

theorem merge_inner_fold_length (tref : Nat) (ls : List CodeLocation) :
    ∀ acc, (ls.foldl (merge_inner_step tref) acc).1.length = acc.1.length := by
  induction ls with
  | nil => intro acc; rfl
  | cons l rest ih =>
    intro acc
    rw [List.foldl_cons, ih (merge_inner_step tref acc l)]
    unfold merge_inner_step
    split
    · rfl
    · exact length_heapAdd _ _ _

theorem merge_inner_fold_mono (tref : Nat) (ls : List CodeLocation) :
    ∀ acc r z, z ∈ heapGet acc.1 r → z ∈ heapGet (ls.foldl (merge_inner_step tref) acc).1 r := by
  induction ls with
  | nil => intro acc r z hz; exact hz
  | cons l rest ih =>
    intro acc r z hz
    rw [List.foldl_cons]
    apply ih
    unfold merge_inner_step
    split
    · exact hz
    · exact heapGet_heapAdd_subset _ _ _ _ _ hz

theorem merge_inner_fold_adds (tref : Nat) (loc : CodeLocation) (ls : List CodeLocation) :
    ∀ acc, tref < acc.1.length →
      (loc ∈ ls ∨ loc ∈ heapGet acc.1 tref) →
      loc ∈ heapGet (ls.foldl (merge_inner_step tref) acc).1 tref := by
  induction ls with
  | nil =>
    intro acc _ hd
    rcases hd with hd | hd
    · simp at hd
    · exact hd
  | cons l rest ih =>
    intro acc hlen hd
    rw [List.foldl_cons]
    have hlen' : tref < (merge_inner_step tref acc l).1.length := by
      unfold merge_inner_step
      split
      · exact hlen
      · rw [length_heapAdd]
        exact hlen
    by_cases hl : loc ∈ heapGet acc.1 tref
    · refine ih _ hlen' (Or.inr ?_)
      unfold merge_inner_step
      split
      · exact hl
      · exact heapGet_heapAdd_subset _ _ _ _ _ hl
    · rcases hd with hd | hd
      · rcases List.mem_cons.mp hd with hde | hde
        · subst hde
          refine ih _ hlen' (Or.inr ?_)
          unfold merge_inner_step
          split
          · rename_i hmem
            exact hmem
          · exact mem_heapGet_heapAdd _ _ hlen
        · exact ih _ hlen' (Or.inl hde)
      · exact absurd hd hl

/-- Main induction for the merge: a location reachable from the target's
binding, or pending in the remaining new-defs entries, ends up reachable
from the merged dict's binding. -/
theorem merge_entry_fold_reaches (v : SimVariable) (loc : CodeLocation) :
    ∀ (nds : List (SimVariable × Nat)) (h : Heap) (target : LiveDefs) (chg : Bool),
      ((∃ r, alGet target v = some r ∧ loc ∈ heapGet h r) ∨
       (∃ r tref, alGet target v = some tref ∧ tref < h.length ∧
          alGet nds v = some r ∧ loc ∈ heapGet h r) ∨
       (alGet target v = none ∧ ∃ r, alGet nds v = some r ∧ loc ∈ heapGet h r)) →
      ∃ r', alGet (nds.foldl merge_entry_step (h, target, chg)).2.1 v = some r' ∧
        loc ∈ heapGet (nds.foldl merge_entry_step (h, target, chg)).1 r' := by
  intro nds
  induction nds with
  | nil =>
    intro h target chg hd
    rcases hd with ⟨r, h1, h2⟩ | ⟨r, tref, _, _, h3, _⟩ | ⟨_, ⟨r, h3, _⟩⟩
    · exact ⟨r, h1, h2⟩
    · simp [alGet] at h3
    · simp [alGet] at h3
  | cons entry rest ih =>
    intro h target chg hd
    rw [List.foldl_cons]
    cases hlook : alGet target entry.1 with
    | none =>
      have hstep : merge_entry_step (h, target, chg) entry =
          (h, alSet target entry.1 entry.2, true) := by
        unfold merge_entry_step
        dsimp only
        rw [hlook]
      rw [hstep]
      rcases hd with ⟨r, h1, h2⟩ | ⟨r, tref, hb1, hb2, hb3, hb4⟩ | ⟨hc1, ⟨r, hc2, hc3⟩⟩
      · have hne : v ≠ entry.1 := by
          intro hc
          rw [hc, hlook] at h1
          exact Option.noConfusion h1
        refine ih h _ true (Or.inl ⟨r, ?_, h2⟩)
        rw [alGet_alSet_ne _ _ hne]
        exact h1
      · have hne : v ≠ entry.1 := by
          intro hc
          rw [hc, hlook] at hb1
          exact Option.noConfusion hb1
        have hrest : alGet rest v = some r := by
          rw [alGet] at hb3
          rw [if_neg (fun hc => hne hc.symm)] at hb3
          exact hb3
        refine ih h _ true (Or.inr (Or.inl ⟨r, tref, ?_, hb2, hrest, hb4⟩))
        rw [alGet_alSet_ne _ _ hne]
        exact hb1
      · by_cases hev : entry.1 = v
        · have hr : r = entry.2 := by
            rw [alGet, if_pos hev] at hc2
            exact (Option.some.injEq _ _ ▸ hc2).symm
          subst hr
          refine ih h _ true (Or.inl ⟨entry.2, ?_, hc3⟩)
          rw [← hev, alGet_alSet_self]
        · have hrest : alGet rest v = some r := by
            rw [alGet, if_neg hev] at hc2
            exact hc2
          refine ih h _ true (Or.inr (Or.inr ⟨?_, ⟨r, hrest, hc3⟩⟩))
          rw [alGet_alSet_ne _ _ (fun hc => hev hc.symm)]
          exact hc1
    | some tref0 =>
      have hstep : merge_entry_step (h, target, chg) entry =
          (heapGet h entry.2).foldl (merge_inner_step tref0) (h, target, chg) := by
        unfold merge_entry_step
        dsimp only
        rw [hlook]
      rw [hstep]
      set res := (heapGet h entry.2).foldl (merge_inner_step tref0) (h, target, chg) with hres
      have ht : res.2.1 = target := merge_inner_fold_target tref0 _ _
      have hlen : res.1.length = h.length := merge_inner_fold_length tref0 _ _
      have hmono : ∀ r z, z ∈ heapGet h r → z ∈ heapGet res.1 r := by
        intro r z hz
        exact merge_inner_fold_mono tref0 _ (h, target, chg) r z hz
      rcases hd with ⟨r, h1, h2⟩ | ⟨r, tref, hb1, hb2, hb3, hb4⟩ | ⟨hc1, ⟨r, hc2, hc3⟩⟩
      · refine ih res.1 res.2.1 res.2.2 ?_ |>.imp ?_
        · exact Or.inl ⟨r, by rw [ht]; exact h1, hmono r loc h2⟩
        · intro r' hr'
          exact hr'
      · by_cases hev : entry.1 = v
        · have htr : tref = tref0 := by
            rw [hev, hb1] at hlook
            exact Option.some.injEq _ _ ▸ hlook
          subst htr
          have hr : r = entry.2 := by
            rw [alGet, if_pos hev] at hb3
            exact (Option.some.injEq _ _ ▸ hb3).symm
          subst hr
          have hadd : loc ∈ heapGet res.1 tref := by
            rw [hres]
            exact merge_inner_fold_adds tref loc _ (h, target, chg) hb2 (Or.inl hb4)
          refine ih res.1 res.2.1 res.2.2 (Or.inl ⟨tref, ?_, hadd⟩)
          rw [ht]
          exact hb1
        · have hrest : alGet rest v = some r := by
            rw [alGet, if_neg hev] at hb3
            exact hb3
          refine ih res.1 res.2.1 res.2.2
            (Or.inr (Or.inl ⟨r, tref, by rw [ht]; exact hb1, ?_, hrest, hmono r loc hb4⟩))
          rw [hlen]
          exact hb2
      · have hne : entry.1 ≠ v := by
          intro hc
          rw [hc, hc1] at hlook
          exact Option.noConfusion hlook
        have hrest : alGet rest v = some r := by
          rw [alGet, if_neg hne] at hc2
          exact hc2
        exact ih res.1 res.2.1 res.2.2
          (Or.inr (Or.inr ⟨by rw [ht]; exact hc1, ⟨r, hrest, hmono r loc hc3⟩⟩))

/-- The merge never drops a location: everything in the successor's
existing set, and every new location the tracker delivered, is in the
merged set. -/
theorem merge_defs_accumulates (h : Heap) (target new_defs : LiveDefs)
    (hval : ldValid h target) (v : SimVariable) (loc : CodeLocation)
    (hmem : loc ∈ liveDefsSet h target v ∨ loc ∈ liveDefsSet h new_defs v) :
    loc ∈ liveDefsSet (merge_defs h target new_defs).1
      (merge_defs h target new_defs).2.1 v := by
  unfold merge_defs
  have hd :
      ((∃ r, alGet target v = some r ∧ loc ∈ heapGet h r) ∨
       (∃ r tref, alGet target v = some tref ∧ tref < h.length ∧
          alGet new_defs v = some r ∧ loc ∈ heapGet h r) ∨
       (alGet target v = none ∧ ∃ r, alGet new_defs v = some r ∧ loc ∈ heapGet h r)) := by
    rcases hmem with hm | hm
    · unfold liveDefsSet at hm
      cases ht : alGet target v with
      | none => rw [ht] at hm; simp at hm
      | some r =>
        rw [ht] at hm
        exact Or.inl ⟨r, rfl, hm⟩
    · unfold liveDefsSet at hm
      cases hn : alGet new_defs v with
      | none => rw [hn] at hm; simp at hm
      | some r =>
        rw [hn] at hm
        cases ht : alGet target v with
        | none => exact Or.inr (Or.inr ⟨rfl, ⟨r, rfl, hm⟩⟩)
        | some tref =>
          exact Or.inr (Or.inl ⟨r, tref, rfl, hval _ (alGet_mem _ _ _ ht), rfl, hm⟩)
  obtain ⟨r', hr1, hr2⟩ := merge_entry_fold_reaches v loc new_defs h target false hd
  unfold liveDefsSet
  rw [hr1]
  exact hr2

/-! ### Simplifier lemmas -/

theorem mem_in_edges (g : DiGraph ProgramVariable) (t : ProgramVariable)
    (e : ProgramVariable × ProgramVariable × Labels) :
    e ∈ g.in_edges t ↔ e ∈ g.edges ∧ e.2.1 = t := by
  simp [DiGraph.in_edges, List.mem_filter]

theorem mem_out_edges (g : DiGraph ProgramVariable) (t : ProgramVariable)
    (e : ProgramVariable × ProgramVariable × Labels) :
    e ∈ g.out_edges t ↔ e ∈ g.edges ∧ e.1 = t := by
  simp [DiGraph.out_edges, List.mem_filter]

theorem hasEdge_iff_exists (g : DiGraph ProgramVariable) (u v : ProgramVariable) :
    g.hasEdge u v = true ↔ ∃ e ∈ g.edges, e.1 = u ∧ e.2.1 = v := by
  simp [DiGraph.hasEdge, List.any_eq_true]

theorem splice_pair_fold_pairs (t : ProgramVariable)
    (ein : ProgramVariable × ProgramVariable × Labels)
    (outs : List (ProgramVariable × ProgramVariable × Labels)) :
    ∀ (acc : DiGraph ProgramVariable) (u v : ProgramVariable),
      (u, v) ∈ (outs.foldl (splice_pair_step t ein) acc).edgePairs ↔
        ((u, v) ∈ acc.edgePairs ∨
          (ein.1 ≠ t ∧ u = ein.1 ∧ ∃ eout ∈ outs, eout.2.1 ≠ t ∧ v = eout.2.1)) := by
  induction outs with
  | nil =>
    intro acc u v
    simp
  | cons eout rest ih =>
    intro acc u v
    rw [List.foldl_cons, ih]
    unfold splice_pair_step
    by_cases hc : ein.1 ≠ t ∧ eout.2.1 ≠ t
    · rw [if_pos hc, DiGraph.edgePairs_add_edge]
      simp only [List.exists_mem_cons_iff]
      constructor
      · rintro ((h | ⟨h1, h2⟩) | h)
        · exact Or.inl h
        · exact Or.inr ⟨hc.1, h1, Or.inl ⟨hc.2, h2⟩⟩
        · exact Or.inr ⟨h.1, h.2.1, Or.inr h.2.2⟩
      · rintro (h | ⟨h1, h2, (⟨h3, h4⟩ | h3)⟩)
        · exact Or.inl (Or.inl h)
        · exact Or.inl (Or.inr ⟨h2, h4⟩)
        · exact Or.inr ⟨h1, h2, h3⟩
    · rw [if_neg hc]
      simp only [List.exists_mem_cons_iff]
      constructor
      · rintro (h | h)
        · exact Or.inl h
        · exact Or.inr ⟨h.1, h.2.1, Or.inr h.2.2⟩
      · rintro (h | ⟨h1, h2, (⟨h3, h4⟩ | h3)⟩)
        · exact Or.inl h
        · exact absurd ⟨h1, h3⟩ hc
        · exact Or.inr ⟨h1, h2, h3⟩

theorem splice_in_fold_pairs (t : ProgramVariable)
    (outs : List (ProgramVariable × ProgramVariable × Labels))
    (ins : List (ProgramVariable × ProgramVariable × Labels)) :
    ∀ (acc : DiGraph ProgramVariable) (u v : ProgramVariable),
      (u, v) ∈ (ins.foldl (splice_in_step t outs) acc).edgePairs ↔
        ((u, v) ∈ acc.edgePairs ∨
          (∃ ein ∈ ins, ein.1 ≠ t ∧ u = ein.1 ∧
            ∃ eout ∈ outs, eout.2.1 ≠ t ∧ v = eout.2.1)) := by
  induction ins with
  | nil =>
    intro acc u v
    simp
  | cons ein rest ih =>
    intro acc u v
    rw [List.foldl_cons, ih]
    unfold splice_in_step
    rw [splice_pair_fold_pairs]
    simp only [List.exists_mem_cons_iff]
    exact or_assoc

/-- The `(src, dst)` characterisation of one temporary-node removal. -/
theorem step_hasEdge (g : DiGraph ProgramVariable) (t u v : ProgramVariable) :
    (simplify_remove_tmp g t).hasEdge u v = true ↔
      (u ≠ t ∧ v ≠ t ∧ (g.hasEdge u v = true ∨
        (g.hasEdge u t = true ∧ g.hasEdge t v = true))) := by
  unfold simplify_remove_tmp
  rw [DiGraph.hasEdge_iff_pairs, DiGraph.edgePairs_remove_node, splice_in_fold_pairs,
    DiGraph.edgePairs_removeTouching]
  rw [← DiGraph.hasEdge_iff_pairs]
  have hin : (∃ ein ∈ g.in_edges t, ein.1 ≠ t ∧ u = ein.1 ∧
      ∃ eout ∈ g.out_edges t, eout.2.1 ≠ t ∧ v = eout.2.1) ↔
      (u ≠ t ∧ v ≠ t ∧ g.hasEdge u t = true ∧ g.hasEdge t v = true) := by
    constructor
    · rintro ⟨ein, hein, h1, h2, eout, heout, h3, h4⟩
      rw [mem_in_edges] at hein
      rw [mem_out_edges] at heout
      subst h2
      subst h4
      refine ⟨h1, h3, ?_, ?_⟩
      · rw [hasEdge_iff_exists]
        exact ⟨ein, hein.1, rfl, hein.2⟩
      · rw [hasEdge_iff_exists]
        exact ⟨eout, heout.1, heout.2, rfl⟩
    · rintro ⟨h1, h2, h3, h4⟩
      rw [hasEdge_iff_exists] at h3 h4
      obtain ⟨ein, hein, he1, he2⟩ := h3
      obtain ⟨eout, heout, ho1, ho2⟩ := h4
      refine ⟨ein, ?_, ?_, he1.symm, eout, ?_, ?_, ho2.symm⟩
      · rw [mem_in_edges]
        exact ⟨hein, he2⟩
      · rw [he1]
        exact h1
      · rw [mem_out_edges]
        exact ⟨heout, ho1⟩
      · rw [ho2]
        exact h2
  rw [hin]
  tauto

theorem Thru.mono_S {E : ProgramVariable → ProgramVariable → Prop}
    {S S' : ProgramVariable → Prop} (hS : ∀ x, S x → S' x)
    {u v : ProgramVariable} (h : Thru E S u v) : Thru E S' u v := by
  induction h with
  | base h => exact Thru.base h
  | step h hw _ ih => exact Thru.step h (hS _ hw) ih

theorem Thru.congr_E {E E' : ProgramVariable → ProgramVariable → Prop}
    {S : ProgramVariable → Prop} (hE : ∀ a b, E a b ↔ E' a b)
    {u v : ProgramVariable} (h : Thru E S u v) : Thru E' S u v := by
  induction h with
  | base h => exact Thru.base ((hE _ _).mp h)
  | step h hw _ ih => exact Thru.step ((hE _ _).mp h) hw ih

theorem thru_empty {E : ProgramVariable → ProgramVariable → Prop}
    {S : ProgramVariable → Prop} (hS : ∀ x, ¬ S x) {u v : ProgramVariable} :
    Thru E S u v ↔ E u v := by
  constructor
  · intro h
    cases h with
    | base h => exact h
    | step h hw _ => exact absurd hw (hS _)
  · exact Thru.base

theorem thru_splice_ne {E : ProgramVariable → ProgramVariable → Prop}
    {t : ProgramVariable} {S : ProgramVariable → Prop} {u v : ProgramVariable}
    (h : Thru (spliceRel E t) S u v) : u ≠ t ∧ v ≠ t := by
  induction h with
  | base h => exact ⟨h.1, h.2.1⟩
  | step h _ _ ih => exact ⟨h.1, ih.2⟩

theorem thru_splice_forward {E : ProgramVariable → ProgramVariable → Prop}
    {t : ProgramVariable} {S : ProgramVariable → Prop} {u v : ProgramVariable}
    (h : Thru (spliceRel E t) S u v) : Thru E (fun x => x = t ∨ S x) u v := by
  induction h with
  | base h =>
    rcases h.2.2 with h1 | ⟨h1, h2⟩
    · exact Thru.base h1
    · exact Thru.step h1 (Or.inl rfl) (Thru.base h2)
  | step h hw _ ih =>
    rcases h.2.2 with h1 | ⟨h1, h2⟩
    · exact Thru.step h1 (Or.inr hw) ih
    · exact Thru.step h1 (Or.inl rfl) (Thru.step h2 (Or.inr hw) ih)

theorem thru_splice_backward {E : ProgramVariable → ProgramVariable → Prop}
    {t : ProgramVariable} {S : ProgramVariable → Prop} :
    ∀ {u v : ProgramVariable}, Thru E (fun x => x = t ∨ S x) u v → v ≠ t →
      ((u ≠ t → Thru (spliceRel E t) S u v) ∧
       (u = t → ∀ p, p ≠ t → E p t → Thru (spliceRel E t) S p v)) := by
  intro u v h
  induction h with
  | @base u' v' h =>
    intro hv
    constructor
    · intro hu
      exact Thru.base ⟨hu, hv, Or.inl h⟩
    · intro hu p hp hpt
      exact Thru.base ⟨hp, hv, Or.inr ⟨hpt, hu ▸ h⟩⟩
  | @step u' w' v' h hw ht ih =>
    intro hv
    constructor
    · intro hu
      rcases hw with hw | hw
      · exact (ih hv).2 hw u' hu (hw ▸ h)
      · by_cases hwt : w' = t
        · exact (ih hv).2 hwt u' hu (hwt ▸ h)
        · exact Thru.step ⟨hu, hwt, Or.inl h⟩ hw ((ih hv).1 hwt)
    · intro hu p hp hpt
      rcases hw with hw | hw
      · exact (ih hv).2 hw p hp hpt
      · by_cases hwt : w' = t
        · exact (ih hv).2 hwt p hp hpt
        · exact Thru.step ⟨hp, hwt, Or.inr ⟨hpt, hu ▸ h⟩⟩ hw ((ih hv).1 hwt)

/-- The `(src, dst)` characterisation of the whole simplification run: a
direct edge survives exactly when there is a path through removed nodes. -/
theorem simplifyWith_hasEdge (l : List ProgramVariable) :
    ∀ (g : DiGraph ProgramVariable) (u v : ProgramVariable),
      (simplifyWith g l).hasEdge u v = true ↔
        (u ∉ l ∧ v ∉ l ∧
          Thru (fun a b => g.hasEdge a b = true) (fun x => x ∈ l) u v) := by
  induction l with
  | nil =>
    intro g u v
    show g.hasEdge u v = true ↔ _
    rw [thru_empty (by simp)]
    simp
  | cons t rest ih =>
    intro g u v
    show (simplifyWith (simplify_remove_tmp g t) rest).hasEdge u v = true ↔ _
    rw [ih]
    constructor
    · rintro ⟨h1, h2, h3⟩
      have h3' : Thru (spliceRel (fun a b => g.hasEdge a b = true) t)
          (fun x => x ∈ rest) u v :=
        Thru.congr_E (fun a b => by rw [step_hasEdge]; exact Iff.rfl) h3
      have hne := thru_splice_ne h3'
      refine ⟨?_, ?_, ?_⟩
      · simp only [List.mem_cons, not_or]
        exact ⟨hne.1, h1⟩
      · simp only [List.mem_cons, not_or]
        exact ⟨hne.2, h2⟩
      · exact Thru.mono_S (fun x hx => by
          rcases hx with hx | hx
          · rw [hx]
            exact List.mem_cons_self t rest
          · exact List.mem_cons_of_mem t hx) (thru_splice_forward h3')
    · rintro ⟨h1, h2, h3⟩
      simp only [List.mem_cons, not_or] at h1 h2
      have h3' : Thru (fun a b => g.hasEdge a b = true)
          (fun x => x = t ∨ x ∈ rest) u v :=
        Thru.mono_S (fun x hx => List.mem_cons.mp hx) h3
      have hb := (thru_splice_backward h3' h2.1).1 h1.1
      exact ⟨h1.2, h2.2, Thru.congr_E
        (fun a b => by rw [step_hasEdge]; exact Iff.rfl) hb⟩

theorem nodes_add_edge_of_mem {α : Type} [DecidableEq α] (g : DiGraph α)
    (a b : α) (lbl : Labels) (ha : a ∈ g.nodes) (hb : b ∈ g.nodes) :
    (g.add_edge a b lbl).nodes = g.nodes := by
  unfold DiGraph.add_edge
  have h1 : (g.add_node a).nodes = g.nodes := DiGraph.nodes_add_node g a ha
  have h2 : ((g.add_node a).add_node b).nodes = g.nodes := by
    rw [DiGraph.nodes_add_node _ b (by rw [h1]; exact hb), h1]
  dsimp only
  split <;> exact h2

theorem hasEdge_endpoints (g : DiGraph ProgramVariable) (hc : g.closed)
    (u v : ProgramVariable) (h : g.hasEdge u v = true) :
    u ∈ g.nodes ∧ v ∈ g.nodes := by
  rw [hasEdge_iff_exists] at h
  obtain ⟨e, he, h1, h2⟩ := h
  have := hc e he
  rw [h1, h2] at this
  exact this

theorem splice_pair_fold_nodes (t : ProgramVariable)
    (ein : ProgramVariable × ProgramVariable × Labels)
    (outs : List (ProgramVariable × ProgramVariable × Labels)) :
    ∀ (acc : DiGraph ProgramVariable) (N : List ProgramVariable),
      acc.nodes = N → ein.1 ∈ N → (∀ eout ∈ outs, eout.2.1 ∈ N) →
      (outs.foldl (splice_pair_step t ein) acc).nodes = N := by
  induction outs with
  | nil =>
    intro acc N h _ _
    exact h
  | cons eout rest ih =>
    intro acc N h hein houts
    rw [List.foldl_cons]
    refine ih _ N ?_ hein (fun e he => houts e (List.mem_cons_of_mem _ he))
    unfold splice_pair_step
    split
    · rw [nodes_add_edge_of_mem _ _ _ _ (h ▸ hein)
        (h ▸ houts eout (List.mem_cons_self _ _))]
      exact h
    · exact h

theorem splice_in_fold_nodes (t : ProgramVariable)
    (outs : List (ProgramVariable × ProgramVariable × Labels))
    (ins : List (ProgramVariable × ProgramVariable × Labels)) :
    ∀ (acc : DiGraph ProgramVariable) (N : List ProgramVariable),
      acc.nodes = N → (∀ ein ∈ ins, ein.1 ∈ N) → (∀ eout ∈ outs, eout.2.1 ∈ N) →
      (ins.foldl (splice_in_step t outs) acc).nodes = N := by
  induction ins with
  | nil =>
    intro acc N h _ _
    exact h
  | cons ein rest ih =>
    intro acc N h hins houts
    rw [List.foldl_cons]
    refine ih _ N ?_ (fun e he => hins e (List.mem_cons_of_mem _ he)) houts
    exact splice_pair_fold_nodes t ein outs acc N h
      (hins ein (List.mem_cons_self _ _)) houts

theorem step_nodes (g : DiGraph ProgramVariable) (t : ProgramVariable)
    (hc : g.closed) : (simplify_remove_tmp g t).nodes = g.nodes.erase t := by
  unfold simplify_remove_tmp
  show ((g.in_edges t).foldl (splice_in_step t (g.out_edges t))
    (g.removeTouching t)).nodes.erase t = _
  rw [splice_in_fold_nodes t (g.out_edges t) (g.in_edges t) (g.removeTouching t)
    g.nodes rfl
    (fun e he => (hc e ((mem_in_edges g t e).mp he).1).1)
    (fun e he => (hc e ((mem_out_edges g t e).mp he).1).2)]

theorem step_closed (g : DiGraph ProgramVariable) (t : ProgramVariable)
    (hc : g.closed) : (simplify_remove_tmp g t).closed := by
  intro e he
  have hp : (simplify_remove_tmp g t).hasEdge e.1 e.2.1 = true := by
    rw [DiGraph.hasEdge_iff_pairs]
    exact List.mem_map_of_mem _ he
  rw [step_hasEdge] at hp
  obtain ⟨h1, h2, h3⟩ := hp
  rw [step_nodes g t hc]
  have hmem : e.1 ∈ g.nodes ∧ e.2.1 ∈ g.nodes := by
    rcases h3 with h3 | ⟨h3, h4⟩
    · exact hasEdge_endpoints g hc _ _ h3
    · exact ⟨(hasEdge_endpoints g hc _ _ h3).1, (hasEdge_endpoints g hc _ _ h4).2⟩
  exact ⟨(List.mem_erase_of_ne h1).mpr hmem.1, (List.mem_erase_of_ne h2).mpr hmem.2⟩

theorem simplifyWith_nodes_closed (l : List ProgramVariable) :
    ∀ g : DiGraph ProgramVariable, g.closed →
      (simplifyWith g l).nodes = l.foldl List.erase g.nodes ∧
        (simplifyWith g l).closed := by
  induction l with
  | nil =>
    intro g hc
    exact ⟨rfl, hc⟩
  | cons t rest ih =>
    intro g hc
    have h1 := ih (simplify_remove_tmp g t) (step_closed g t hc)
    refine ⟨?_, h1.2⟩
    show (simplifyWith (simplify_remove_tmp g t) rest).nodes = _
    rw [h1.1, step_nodes g t hc]
    rfl

theorem foldl_erase_perm {α : Type} [DecidableEq α] {l1 l2 : List α}
    (h : l1.Perm l2) : ∀ n : List α, l1.foldl List.erase n = l2.foldl List.erase n := by
  induction h with
  | nil => intro n; rfl
  | cons x _ ih =>
    intro n
    rw [List.foldl_cons, List.foldl_cons, ih]
  | swap x y l =>
    intro n
    rw [List.foldl_cons, List.foldl_cons, List.foldl_cons, List.foldl_cons,
      List.erase_comm]
  | trans _ _ ih1 ih2 =>
    intro n
    rw [ih1, ih2]

theorem mem_of_mem_foldl_erase {α : Type} [DecidableEq α] (l : List α) :
    ∀ (n : List α) (x : α), x ∈ l.foldl List.erase n → x ∈ n := by
  induction l with
  | nil =>
    intro n x hx
    exact hx
  | cons t rest ih =>
    intro n x hx
    rw [List.foldl_cons] at hx
    exact List.mem_of_mem_erase (ih _ x hx)

theorem not_mem_foldl_erase {α : Type} [DecidableEq α] (l : List α) :
    ∀ (n : List α) (x : α), n.Nodup → x ∈ l → x ∉ l.foldl List.erase n := by
  induction l with
  | nil =>
    intro n x _ hx
    simp at hx
  | cons t rest ih =>
    intro n x hnd hx
    rw [List.foldl_cons]
    rcases List.mem_cons.mp hx with hx | hx
    · intro hc
      have hxe := mem_of_mem_foldl_erase rest _ x hc
      rw [hnd.mem_erase_iff] at hxe
      exact hxe.1 hx
    · exact ih (n.erase t) x (hnd.erase t) hx

/-! ### Function-projection lemmas -/

theorem inner_blocks_fold_get (f : Function) (blocks : List Nat) :
    ∀ (m : List (Nat × Function)) (a : Nat),
      alGet (blocks.foldl (simrun_block_step f) m) a =
        if a ∈ blocks then some f else alGet m a := by
  induction blocks with
  | nil =>
    intro m a
    simp
  | cons b rest ih =>
    intro m a
    rw [List.foldl_cons, ih]
    by_cases ha : a ∈ rest
    · rw [if_pos ha, if_pos (List.mem_cons_of_mem _ ha)]
    · rw [if_neg ha]
      by_cases hb : a = b
      · subst hb
        rw [if_pos (List.mem_cons_self _ _)]
        unfold simrun_block_step
        exact alGet_alSet_self _ _ _
      · rw [if_neg (by simp [hb, ha])]
        unfold simrun_block_step
        exact alGet_alSet_ne _ _ hb

theorem simrun_fold_untouched (a : Nat) :
    ∀ (funcs : List Function) (m : List (Nat × Function)),
      (∀ g ∈ funcs, a ∉ g.blocks) →
      alGet (funcs.foldl simrun_func_step m) a = alGet m a := by
  intro funcs
  induction funcs with
  | nil =>
    intro m _
    rfl
  | cons f0 rest ih =>
    intro m hno
    rw [List.foldl_cons, ih _ (fun g hg => hno g (List.mem_cons_of_mem _ hg))]
    unfold simrun_func_step
    rw [inner_blocks_fold_get, if_neg (hno f0 (List.mem_cons_self _ _))]

theorem simrun_fold_get (f : Function) (a : Nat) (ha : a ∈ f.blocks) :
    ∀ (funcs : List Function) (m : List (Nat × Function)),
      f ∈ funcs → (∀ f2 ∈ funcs, f ≠ f2 → a ∉ f2.blocks) →
      alGet (funcs.foldl simrun_func_step m) a = some f := by
  intro funcs
  induction funcs with
  | nil =>
    intro m hf
    simp at hf
  | cons f0 rest ih =>
    intro m hf hdis
    rw [List.foldl_cons]
    by_cases hfr : f ∈ rest
    · exact ih _ hfr (fun f2 h2 hne => hdis f2 (List.mem_cons_of_mem _ h2) hne)
    · have hff0 : f = f0 := by
        rcases List.mem_cons.mp hf with h | h
        · exact h
        · exact absurd h hfr
      subst hff0
      rw [simrun_fold_untouched a rest _ (fun g hg => by
        by_cases hgf : f = g
        · exact absurd (hgf ▸ hg) hfr
        · exact hdis g (List.mem_cons_of_mem _ hg) hgf)]
      unfold simrun_func_step
      rw [inner_blocks_fold_get, if_pos ha]

theorem locFunc_of_block (funcs : List Function)
    (hdisj : ∀ f1 ∈ funcs, ∀ f2 ∈ funcs, f1 ≠ f2 → ∀ a, a ∈ f1.blocks → a ∉ f2.blocks)
    (f : Function) (hf : f ∈ funcs) (loc : CodeLocation) (a : Nat)
    (hsa : loc.simrun_addr = some a) (ha : a ∈ f.blocks) :
    locFunc funcs loc = some f := by
  unfold locFunc
  rw [hsa]
  unfold simrun_addr_to_func
  exact simrun_fold_get f a ha funcs [] hf
    (fun f2 h2 hne => hdisj f hf f2 h2 hne a ha)

/-- Edge presence in a function's subgraph inside the grouping map. -/
def fdHasEdge (m : List (Function × DiGraph CodeLocation)) (f : Function)
    (s d : CodeLocation) : Prop :=
  ∃ G, alGet m f = some G ∧ G.hasEdge s d = true

theorem fdHasEdge_addEdge_preserve (m : List (Function × DiGraph CodeLocation))
    (f f' : Function) (s d s' d' : CodeLocation) (lbl : Labels)
    (h : fdHasEdge m f s d) : fdHasEdge (fdAddEdge m f' s' d' lbl) f s d := by
  obtain ⟨G, h1, h2⟩ := h
  by_cases hff : f' = f
  · subst hff
    unfold fdAddEdge
    refine ⟨(alGetD m f' ⟨[], []⟩).add_edge s' d' lbl, alGet_alSet_self _ _ _, ?_⟩
    rw [DiGraph.hasEdge_add_edge]
    left
    unfold alGetD
    rw [h1]
    exact h2
  · exact ⟨G, by
      unfold fdAddEdge
      rw [alGet_alSet_ne _ _ (fun hc => hff hc.symm)]
      exact h1, h2⟩

theorem fdHasEdge_addEdge_self (m : List (Function × DiGraph CodeLocation))
    (f : Function) (s d : CodeLocation) (lbl : Labels) :
    fdHasEdge (fdAddEdge m f s d lbl) f s d := by
  unfold fdAddEdge
  refine ⟨(alGetD m f ⟨[], []⟩).add_edge s d lbl, alGet_alSet_self _ _ _, ?_⟩
  rw [DiGraph.hasEdge_add_edge]
  exact Or.inr ⟨rfl, rfl⟩

theorem build_fd_step_preserve (funcs : List Function)
    (m : List (Function × DiGraph CodeLocation))
    (e : CodeLocation × CodeLocation × Labels) (f : Function)
    (s d : CodeLocation) (h : fdHasEdge m f s d) :
    fdHasEdge (build_fd_step funcs m e) f s d := by
  unfold build_fd_step
  cases locFunc funcs e.1 with
  | none =>
    cases locFunc funcs e.2.1 with
    | none => exact h
    | some fd =>
      dsimp only
      split
      · exact h
      · exact fdHasEdge_addEdge_preserve _ _ _ _ _ _ _ _ h
  | some fsrc =>
    cases locFunc funcs e.2.1 with
    | none => exact fdHasEdge_addEdge_preserve _ _ _ _ _ _ _ _ h
    | some fd =>
      dsimp only
      split
      · exact fdHasEdge_addEdge_preserve _ _ _ _ _ _ _ _ h
      · exact fdHasEdge_addEdge_preserve _ _ _ _ _ _ _ _
          (fdHasEdge_addEdge_preserve _ _ _ _ _ _ _ _ h)

theorem build_fd_step_establish (funcs : List Function)
    (m : List (Function × DiGraph CodeLocation))
    (e : CodeLocation × CodeLocation × Labels) (f : Function)
    (hattr : locFunc funcs e.1 = some f ∨ locFunc funcs e.2.1 = some f) :
    fdHasEdge (build_fd_step funcs m e) f e.1 e.2.1 := by
  unfold build_fd_step
  cases hsrc : locFunc funcs e.1 with
  | none =>
    rcases hattr with h | h
    · rw [hsrc] at h
      exact Option.noConfusion h
    · rw [h]
      dsimp only
      rw [if_neg (fun hc => Option.noConfusion hc)]
      exact fdHasEdge_addEdge_self _ _ _ _ _
  | some fsrc =>
    by_cases hf : fsrc = f
    · subst hf
      cases hdst : locFunc funcs e.2.1 with
      | none => exact fdHasEdge_addEdge_self _ _ _ _ _
      | some fd =>
        dsimp only
        split
        · exact fdHasEdge_addEdge_self _ _ _ _ _
        · exact fdHasEdge_addEdge_preserve _ _ _ _ _ _ _ _
            (fdHasEdge_addEdge_self _ _ _ _ _)
    · rcases hattr with h | h
      · rw [hsrc] at h
        exact absurd (Option.some.injEq _ _ ▸ h) hf
      · rw [h]
        dsimp only
        split
        · rename_i hcond
          exact absurd (Option.some.injEq fsrc f ▸ hcond) hf
        · exact fdHasEdge_addEdge_self _ _ _ _ _

theorem build_fold_has (funcs : List Function) (f : Function) :
    ∀ (es : List (CodeLocation × CodeLocation × Labels))
      (m : List (Function × DiGraph CodeLocation))
      (e : CodeLocation × CodeLocation × Labels),
      e ∈ es → (locFunc funcs e.1 = some f ∨ locFunc funcs e.2.1 = some f) →
      fdHasEdge (es.foldl (build_fd_step funcs) m) f e.1 e.2.1 := by
  intro es
  induction es with
  | nil =>
    intro m e he
    simp at he
  | cons e0 rest ih =>
    intro m e he hattr
    rw [List.foldl_cons]
    rcases List.mem_cons.mp he with he | he
    · subst he
      have hstart := build_fd_step_establish funcs m e f hattr
      exact foldl_invariant (build_fd_step funcs)
        (fun x y => ∀ f' s d, fdHasEdge x f' s d → fdHasEdge y f' s d)
        (fun _ _ _ _ h => h)
        (fun x y z hxy hyz f' s d h => hyz f' s d (hxy f' s d h))
        (fun x b f' s d h => build_fd_step_preserve funcs x b f' s d h)
        rest _ f e.1 e.2.1 hstart
    · exact ih _ e he hattr

theorem build_fold_none (funcs : List Function) (f : Function) :
    ∀ (es : List (CodeLocation × CodeLocation × Labels))
      (m : List (Function × DiGraph CodeLocation)),
      (∀ e ∈ es, locFunc funcs e.1 ≠ some f ∧ locFunc funcs e.2.1 ≠ some f) →
      alGet m f = none →
      alGet (es.foldl (build_fd_step funcs) m) f = none := by
  intro es
  induction es with
  | nil =>
    intro m _ hm
    exact hm
  | cons e0 rest ih =>
    intro m hno hm
    rw [List.foldl_cons]
    refine ih _ (fun e he => hno e (List.mem_cons_of_mem _ he)) ?_
    have hne := hno e0 (List.mem_cons_self _ _)
    have hAdd : ∀ (m' : List (Function × DiGraph CodeLocation)) (f' : Function)
        (s d : CodeLocation) (lbl : Labels), some f' ≠ some f → alGet m' f = none →
        alGet (fdAddEdge m' f' s d lbl) f = none := by
      intro m' f' s d lbl hne' hm'
      unfold fdAddEdge
      rw [alGet_alSet_ne _ _ (fun hc => hne' (by rw [hc]))]
      exact hm'
    unfold build_fd_step
    cases hsrc : locFunc funcs e0.1 with
    | none =>
      cases hdst : locFunc funcs e0.2.1 with
      | none => exact hm
      | some fd =>
        dsimp only
        split
        · exact hm
        · exact hAdd _ _ _ _ _ (hdst ▸ hne.2) hm
    | some fsrc =>
      cases hdst : locFunc funcs e0.2.1 with
      | none => exact hAdd _ _ _ _ _ (hsrc ▸ hne.1) hm
      | some fd =>
        dsimp only
        split
        · exact hAdd _ _ _ _ _ (hsrc ▸ hne.1) hm
        · exact hAdd _ _ _ _ _ (hdst ▸ hne.2) (hAdd _ _ _ _ _ (hsrc ▸ hne.1) hm)

/-! ## Claim theorems -/

/-! ### Depth-bounded scheduling: statement-graph destination tracking -/

/-- A membership-aware variant of `foldlM_except_invariant`. -/
theorem foldlM_except_invariant_mem {β σ : Type} (f : σ → β → Except DDGErr σ)
    (Q : σ → σ → Prop) (hrefl : ∀ s, Q s s)
    (htrans : ∀ x y z, Q x y → Q y z → Q x z) :
    ∀ (l : List β), (∀ s b s', b ∈ l → f s b = .ok s' → Q s s') →
      ∀ (s s' : σ), l.foldlM f s = .ok s' → Q s s' := by
  intro l
  induction l with
  | nil =>
    intro _ s s' h
    rw [List.foldlM_nil] at h
    cases h
    exact hrefl s
  | cons b t ih =>
    intro hstep s s' h
    rw [List.foldlM_cons] at h
    cases hf : f s b with
    | error e =>
      rw [hf] at h
      exact Except.noConfusion h
    | ok s1 =>
      rw [hf] at h
      have h2 : t.foldlM f s1 = .ok s' := h
      exact htrans _ _ _ (hstep s b s1 (List.mem_cons_self _ _) hf)
        (ih (fun x c y hc hy => hstep x c y (List.mem_cons_of_mem _ hc) hy) s1 s' h2)

/-- A predicate preserved by every step of an `Except`-valued fold is
preserved by the fold. -/
theorem foldlM_except_pred_mem {β σ : Type} (f : σ → β → Except DDGErr σ)
    (P : σ → Prop) :
    ∀ (l : List β), (∀ s b s', b ∈ l → P s → f s b = .ok s' → P s') →
      ∀ (s s' : σ), P s → l.foldlM f s = .ok s' → P s' := by
  intro l
  induction l with
  | nil =>
    intro _ s s' hP h
    rw [List.foldlM_nil] at h
    cases h
    exact hP
  | cons b t ih =>
    intro hstep s s' hP h
    rw [List.foldlM_cons] at h
    cases hf : f s b with
    | error e =>
      rw [hf] at h
      exact Except.noConfusion h
    | ok s1 =>
      rw [hf] at h
      have h2 : t.foldlM f s1 = .ok s' := h
      exact ih (fun x c y hc hx hy => hstep x c y (List.mem_cons_of_mem _ hc) hx hy)
        s1 s' (hstep s b s1 (List.mem_cons_self _ _) hP hf) h2

/-- A predicate preserved by every step of an `Option`-valued fold is
preserved by the fold. -/
theorem foldlM_option_pred_mem {β σ : Type} (f : σ → β → Option σ)
    (P : σ → Prop) :
    ∀ (l : List β), (∀ s b s', b ∈ l → P s → f s b = some s' → P s') →
      ∀ (s s' : σ), P s → l.foldlM f s = some s' → P s' := by
  intro l
  induction l with
  | nil =>
    intro _ s s' hP h
    rw [List.foldlM_nil] at h
    cases h
    exact hP
  | cons b t ih =>
    intro hstep s s' hP h
    rw [List.foldlM_cons] at h
    cases hf : f s b with
    | none =>
      rw [hf] at h
      exact Option.noConfusion h
    | some s1 =>
      rw [hf] at h
      have h2 : t.foldlM f s1 = some s' := h
      exact ih (fun x c y hc hx hy => hstep x c y (List.mem_cons_of_mem _ hc) hx hy)
        s1 s' (hstep s b s1 (List.mem_cons_self _ _) hP hf) h2

/-- A predicate preserved by every step of a pure fold is preserved by the
fold. -/
theorem foldl_pred_mem {β σ : Type} (f : σ → β → σ) (P : σ → Prop) :
    ∀ (l : List β), (∀ s b, b ∈ l → P s → P (f s b)) → ∀ s, P s → P (l.foldl f s) := by
  intro l
  induction l with
  | nil => intro _ s hP; exact hP
  | cons b t ih =>
    intro hstep s hP
    rw [List.foldl_cons]
    exact ih (fun x c hc hx => hstep x c (List.mem_cons_of_mem _ hc) hx) (f s b)
      (hstep s b (List.mem_cons_self _ _) hP)

/-- The block address of an action's code location is its `bbl_addr`. -/
theorem currentLoc_simrun_addr (a : SimAction) :
    (currentLoc a).simrun_addr = a.bbl_addr := by
  unfold currentLoc
  cases a.bbl_addr <;> rfl

/-- Every pair added by the reaching-definition edge loop targets `cur`. -/
theorem stmt_edges_from_prevdefs_pairs (cur : CodeLocation)
    (g : DiGraph CodeLocation) (prevdefs : List (CodeLocation × Labels)) :
    ∀ u v, (u, v) ∈ (stmt_edges_from_prevdefs cur g prevdefs).edgePairs →
      (u, v) ∈ g.edgePairs ∨ v = cur := by
  unfold stmt_edges_from_prevdefs
  exact foldl_invariant _
    (fun x y => ∀ u v, (u, v) ∈ y.edgePairs → (u, v) ∈ x.edgePairs ∨ v = cur)
    (fun _ _ _ h => Or.inl h)
    (fun x y z hxy hyz u v h => (hyz u v h).elim (fun h2 => hxy u v h2) Or.inr)
    (fun x b u v h =>
      ((edgePairs_stmt_add x b.1 cur b.2 u v).mp h).elim Or.inl (fun h2 => Or.inr h2.2))
    prevdefs g

/-- The register-dependency annotation fold keeps the statement pairs. -/
theorem mem_reg_fold_pairs (keep_data : Bool) (arch : Arch) (s : String)
    (l : List Nat) (x y : TrackState)
    (h : l.foldlM (mem_reg_dep_step keep_data arch s) x = .ok y) :
    y.stmt_graph.edgePairs = x.stmt_graph.edgePairs :=
  foldlM_except_invariant (mem_reg_dep_step keep_data arch s)
    (fun x y => y.stmt_graph.edgePairs = x.stmt_graph.edgePairs)
    (fun _ => rfl) (fun _ _ _ h1 h2 => h2.trans h1)
    (fun x b y hy => (mem_reg_dep_step_preserves _ _ _ _ _ _ hy).2.2.2) l x y h

/-- The temporary-dependency annotation fold keeps the statement pairs. -/
theorem mem_tmp_fold_pairs (s : String) (pv : ProgramVariable) (l : List Nat)
    (x : TrackState) :
    (l.foldl (mem_tmp_dep_step s pv) x).stmt_graph.edgePairs =
      x.stmt_graph.edgePairs :=
  foldl_invariant (mem_tmp_dep_step s pv)
    (fun x y => y.stmt_graph.edgePairs = x.stmt_graph.edgePairs)
    (fun _ => rfl) (fun _ _ _ h1 h2 => h2.trans h1)
    (fun x b => (mem_tmp_dep_step_preserves s pv x b).2.2) l x

/-- The whole dependency-annotation stage keeps the statement pairs. -/
theorem track_mem_deps_pairs (keep_data : Bool) (arch : Arch) (a : SimAction)
    (pv : ProgramVariable) (st1 st' : TrackState)
    (h : track_mem_deps keep_data arch a pv st1 = .ok st') :
    st'.stmt_graph.edgePairs = st1.stmt_graph.edgePairs := by
  unfold track_mem_deps at h
  cases hf1 : a.addr_reg_deps.foldlM (mem_reg_dep_step keep_data arch "mem_addr") st1 with
  | error e => rw [hf1] at h; exact Except.noConfusion h
  | ok st2 =>
    rw [hf1] at h
    dsimp only at h
    cases hf2 : a.data_reg_deps.foldlM (mem_reg_dep_step keep_data arch "mem_data")
        (a.addr_tmp_deps.foldl (mem_tmp_dep_step "mem_addr" pv) st2) with
    | error e => rw [hf2] at h; exact Except.noConfusion h
    | ok st4 =>
      rw [hf2] at h
      dsimp only at h
      cases h
      rw [mem_tmp_fold_pairs, mem_reg_fold_pairs _ _ _ _ _ _ hf2,
        mem_tmp_fold_pairs, mem_reg_fold_pairs _ _ _ _ _ _ hf1]

/-- Every statement pair added by one memory-address iteration targets the
current code location. -/
theorem track_mem_one_pairs (keep_data : Bool) (arch : Arch) (a : SimAction)
    (cur : CodeLocation) (st : TrackState) (addr : Nat) (st' : TrackState)
    (h : track_mem_one keep_data arch a cur st addr = .ok st') :
    ∀ u v, (u, v) ∈ st'.stmt_graph.edgePairs →
      (u, v) ∈ st.stmt_graph.edgePairs ∨ v = cur := by
  unfold track_mem_one at h
  cases ha : a.action with
  | read =>
    rw [ha] at h
    dsimp only at h
    cases hdl : def_lookup keep_data st.heap st.live_defs (.mem addr a.data_size) with
    | error e => rw [hdl] at h; exact Except.noConfusion h
    | ok prevdefs =>
      rw [hdl] at h
      dsimp only at h
      intro u v hv
      rw [track_mem_deps_pairs _ _ _ _ _ _ h] at hv
      exact stmt_edges_from_prevdefs_pairs cur st.stmt_graph prevdefs u v hv
  | write =>
    rw [ha] at h
    dsimp only at h
    intro u v hv
    rw [track_mem_deps_pairs _ _ _ _ _ _ h] at hv
    exact Or.inl hv

/-- Every statement pair added by the reaching-definition loop of a
register read targets the current code location. -/
theorem reg_read_fold_pairs (v0 : SimVariable) (off : Nat) (cur : CodeLocation)
    (prevdefs : List (CodeLocation × Labels)) (st : TrackState) :
    ∀ u v,
      (u, v) ∈ (prevdefs.foldl (reg_read_prev_step v0 off cur) st).stmt_graph.edgePairs →
      (u, v) ∈ st.stmt_graph.edgePairs ∨ v = cur :=
  foldl_invariant (reg_read_prev_step v0 off cur)
    (fun x y => ∀ u v, (u, v) ∈ y.stmt_graph.edgePairs →
      (u, v) ∈ x.stmt_graph.edgePairs ∨ v = cur)
    (fun _ _ _ h => Or.inl h)
    (fun x y z hxy hyz u v h => (hyz u v h).elim (fun h2 => hxy u v h2) Or.inr)
    (fun x b u v h =>
      ((edgePairs_stmt_add x.stmt_graph b.1 cur b.2 u v).mp h).elim Or.inl
        (fun h2 => Or.inr h2.2))
    prevdefs st

/-- The trailing temporary-dependency fold of the register branch keeps
the statement graph. -/
theorem reg_tmp_fold_sg (l : List Nat) (x y : TrackState)
    (h : l.foldlM reg_tmp_dep_step x = .ok y) : y.stmt_graph = x.stmt_graph :=
  foldlM_except_invariant reg_tmp_dep_step (fun x y => y.stmt_graph = x.stmt_graph)
    (fun _ => rfl) (fun _ _ _ h1 h2 => h2.trans h1)
    (fun x b y hy => (reg_tmp_dep_step_preserves x b y hy).2.2) l x y h

/-- A register write never touches the statement graph. -/
theorem reg_write_state_sg (a : SimAction) (cur : CodeLocation) (st : TrackState) :
    (reg_write_state a cur st).stmt_graph = st.stmt_graph := by
  unfold reg_write_state
  dsimp only
  split <;> rfl

/-- Every statement pair added by the register branch targets the current
code location. -/
theorem track_reg_pairs (keep_data : Bool) (a : SimAction) (cur : CodeLocation)
    (st st' : TrackState) (h : track_reg keep_data a cur st = .ok st') :
    ∀ u v, (u, v) ∈ st'.stmt_graph.edgePairs →
      (u, v) ∈ st.stmt_graph.edgePairs ∨ v = cur := by
  unfold track_reg at h
  cases ha : a.action with
  | read =>
    rw [ha] at h
    dsimp only at h
    cases hdl : def_lookup keep_data st.heap st.live_defs (.reg a.offset a.data_size) with
    | error e => rw [hdl] at h; exact Except.noConfusion h
    | ok prevdefs =>
      rw [hdl] at h
      dsimp only at h
      by_cases hpd : prevdefs = []
      · rw [if_pos hpd] at h
        dsimp only at h
        intro u v hv
        rw [reg_tmp_fold_sg _ _ _ h] at hv
        exact reg_read_fold_pairs (.reg a.offset a.data_size) a.offset cur prevdefs st u v hv
      · rw [if_neg hpd] at h
        dsimp only at h
        intro u v hv
        rw [reg_tmp_fold_sg _ _ _ h] at hv
        exact reg_read_fold_pairs (.reg a.offset a.data_size) a.offset cur prevdefs st u v hv
  | write =>
    rw [ha] at h
    dsimp only at h
    intro u v hv
    rw [reg_tmp_fold_sg _ _ _ h, reg_write_state_sg] at hv
    exact Or.inl hv

/-- The temporary-write dependency fold keeps the statement graph. -/
theorem tmp_dep_fold_sg (pv : ProgramVariable) (l : List Nat) (x : TrackState) :
    (l.foldl (tmp_write_dep_step pv) x).stmt_graph = x.stmt_graph :=
  foldl_invariant (tmp_write_dep_step pv) (fun x y => y.stmt_graph = x.stmt_graph)
    (fun _ => rfl) (fun _ _ _ h1 h2 => h2.trans h1)
    (fun x b => by unfold tmp_write_dep_step; cases alGet x.temp_variables b <;> rfl) l x

/-- The data-read fold of a temporary write keeps the statement graph. -/
theorem tmp_data_read_fold_sg (pv : ProgramVariable) (l : List ProgramVariable)
    (x : TrackState) :
    (l.foldl (tmp_write_data_read_step pv) x).stmt_graph = x.stmt_graph :=
  foldl_invariant (tmp_write_data_read_step pv)
    (fun x y => y.stmt_graph = x.stmt_graph) (fun _ => rfl)
    (fun _ _ _ h1 h2 => h2.trans h1) (fun x b => rfl) l x

/-- Every statement pair added by the temporary branch targets the current
code location. -/
theorem track_tmp_pairs (a : SimAction) (cur : CodeLocation) (st st' : TrackState)
    (h : track_tmp a cur st = .ok st') :
    ∀ u v, (u, v) ∈ st'.stmt_graph.edgePairs →
      (u, v) ∈ st.stmt_graph.edgePairs ∨ v = cur := by
  unfold track_tmp at h
  dsimp only at h
  cases ha : a.action with
  | read =>
    rw [ha] at h
    dsimp only at h
    cases htd : alGet st.temp_defs a.tmp with
    | none => rw [htd] at h; exact Except.noConfusion h
    | some prev =>
      rw [htd] at h
      dsimp only at h
      cases h
      intro u v hv
      exact ((edgePairs_stmt_add _ prev cur _ u v).mp hv).elim Or.inl (fun h2 => Or.inr h2.2)
  | write =>
    rw [ha] at h
    dsimp only at h
    cases h
    intro u v hv
    rw [tmp_data_read_fold_sg, tmp_dep_fold_sg] at hv
    exact Or.inl hv

/-- Every statement pair added by one exit-branch iteration targets the
current code location. -/
theorem exit_tmp_step_pairs (cur : CodeLocation) (st : TrackState) (tmp : Nat)
    (st' : TrackState) (h : exit_tmp_step cur st tmp = .ok st') :
    ∀ u v, (u, v) ∈ st'.stmt_graph.edgePairs →
      (u, v) ∈ st.stmt_graph.edgePairs ∨ v = cur := by
  unfold exit_tmp_step at h
  cases htd : alGet st.temp_defs tmp with
  | none => rw [htd] at h; exact Except.noConfusion h
  | some prev =>
    rw [htd] at h
    cases h
    intro u v hv
    exact ((edgePairs_stmt_add _ prev cur _ u v).mp hv).elim Or.inl (fun h2 => Or.inr h2.2)

/-- Every statement pair added by the exit branch targets the current code
location. -/
theorem track_exit_pairs (a : SimAction) (cur : CodeLocation) (st st' : TrackState)
    (h : track_exit a cur st = .ok st') :
    ∀ u v, (u, v) ∈ st'.stmt_graph.edgePairs →
      (u, v) ∈ st.stmt_graph.edgePairs ∨ v = cur := by
  unfold track_exit at h
  exact foldlM_except_invariant (exit_tmp_step cur)
    (fun x y => ∀ u v, (u, v) ∈ y.stmt_graph.edgePairs →
      (u, v) ∈ x.stmt_graph.edgePairs ∨ v = cur)
    (fun _ _ _ hv => Or.inl hv)
    (fun x y z hxy hyz u v hv => (hyz u v hv).elim (fun h2 => hxy u v h2) Or.inr)
    (fun x b y hy => exit_tmp_step_pairs cur x b y hy) _ _ _ h

/-- Every statement pair added while processing one action targets that
action's code location. -/
theorem trackStep_pairs (keep_data : Bool) (arch : Arch) (st : TrackState)
    (a : SimAction) (st' : TrackState) (h : trackStep keep_data arch st a = .ok st') :
    ∀ u v, (u, v) ∈ st'.stmt_graph.edgePairs →
      (u, v) ∈ st.stmt_graph.edgePairs ∨ v = currentLoc a := by
  have key : ∀ (st0 : TrackState), st0.stmt_graph = st.stmt_graph →
      (match a.type with
       | .mem => (addrList a).foldlM (track_mem_one keep_data arch a (currentLoc a)) st0
       | .reg => track_reg keep_data a (currentLoc a) st0
       | .tmp => track_tmp a (currentLoc a) st0
       | .exit => track_exit a (currentLoc a) st0) = .ok st' →
      ∀ u v, (u, v) ∈ st'.stmt_graph.edgePairs →
        (u, v) ∈ st.stmt_graph.edgePairs ∨ v = currentLoc a := by
    intro st0 hsg hm
    cases hty : a.type with
    | mem =>
      rw [hty] at hm
      intro u v hv
      rw [← hsg]
      exact foldlM_except_invariant (track_mem_one keep_data arch a (currentLoc a))
        (fun x y => ∀ u v, (u, v) ∈ y.stmt_graph.edgePairs →
          (u, v) ∈ x.stmt_graph.edgePairs ∨ v = currentLoc a)
        (fun _ _ _ hx => Or.inl hx)
        (fun x y z hxy hyz u v hx => (hyz u v hx).elim (fun h2 => hxy u v h2) Or.inr)
        (fun x b y hy => track_mem_one_pairs _ _ _ _ _ _ _ hy) _ _ _ hm u v hv
    | reg =>
      rw [hty] at hm
      intro u v hv
      rw [← hsg]
      exact track_reg_pairs _ _ _ _ _ hm u v hv
    | tmp =>
      rw [hty] at hm
      intro u v hv
      rw [← hsg]
      exact track_tmp_pairs _ _ _ _ hm u v hv
    | exit =>
      rw [hty] at hm
      intro u v hv
      rw [← hsg]
      exact track_exit_pairs _ _ _ _ hm u v hv
  unfold trackStep at h
  dsimp only at h
  by_cases hc : st.last_statement_id = none ∨ st.last_statement_id ≠ a.stmt_idx
  · rw [if_pos hc] at h
    exact key { st with data_read := [], last_statement_id := a.stmt_idx } rfl h
  · rw [if_neg hc] at h
    exact key st rfl h

/-- Every statement pair the tracker adds over a whole trace targets the
code location of one of the trace's actions. -/
theorem track_pairs (keep_data : Bool) (arch : Arch) (hp : Heap) (ld : LiveDefs)
    (sg : DiGraph CodeLocation) (dg : DiGraph ProgramVariable) (state : SimState)
    (r : Heap × LiveDefs × DiGraph CodeLocation × DiGraph ProgramVariable)
    (h : track keep_data arch hp ld sg dg state = .ok r) :
    ∀ u v, (u, v) ∈ r.2.2.1.edgePairs →
      (u, v) ∈ sg.edgePairs ∨ ∃ a ∈ state.actions, v = currentLoc a := by
  unfold track at h
  cases hf : state.actions.foldlM (trackStep keep_data arch)
      ({ heap := hp, live_defs := ld, temp_defs := [], temp_variables := []
         temps_to_edges := [], regs_to_edges := [], last_statement_id := none
         data_read := [], pv_leak := none, stmt_graph := sg, data_graph := dg } :
        TrackState) with
  | error e => rw [hf] at h; exact Except.noConfusion h
  | ok st =>
    rw [hf] at h
    cases h
    intro u v hv
    exact foldlM_except_invariant_mem (trackStep keep_data arch)
      (fun x y => ∀ u v, (u, v) ∈ y.stmt_graph.edgePairs →
        (u, v) ∈ x.stmt_graph.edgePairs ∨ ∃ a ∈ state.actions, v = currentLoc a)
      (fun _ _ _ hx => Or.inl hx)
      (fun x y z hxy hyz u v hx => (hyz u v hx).elim (fun h2 => hxy u v h2) Or.inr)
      state.actions
      (fun x b y hb hy u v hx =>
        (trackStep_pairs keep_data arch x b y hy u v hx).elim Or.inl
          (fun h2 => Or.inr ⟨b, hb, h2⟩))
      _ st hf u v hv

/-- A successor of any node is an edge destination, hence relevant. -/
theorem successor_relevant (cfg : CFG) (n m : CFGNode) (h : m ∈ cfg.successors n) :
    m ∈ relevantNodes cfg := by
  unfold CFG.successors CFG.out_edges at h
  rcases List.mem_map.mp h with ⟨e, he, hm⟩
  rw [← hm]
  exact List.mem_append_right _ (List.mem_map_of_mem _ (List.mem_filter.mp he).1)

/-- With the bound at 0, pre-expansion from a depth-0 job outside `K`
pushes only depth-0 jobs outside `K`: call edges fail the `depth < bound`
test and, by the region assumption, every non-call destination is outside
`K`. -/
theorem wl_expand_edges_outside (cfg : CFG) (K : List CFGNode)
    (HK2 : ∀ e ∈ cfg.edges, e.1 ∉ K → e.2.1 ∈ K → e.2.2 = JumpKind.call)
    (nw : DDGJob) (hnw2 : nw.2 = 0) (hnwK : nw.1 ∉ K)
    (edges : List (CFGNode × CFGNode × JumpKind))
    (hedges : ∀ e ∈ edges, e ∈ cfg.edges ∧ e.1 = nw.1)
    (wl : Worklist) (traversed : List CFGNode) (stack : List DDGJob)
    (hwl : ∀ j ∈ wl.list, jobOutside cfg K j)
    (hstack : ∀ j ∈ stack, jobOutside cfg K j) :
    (∀ j ∈ (wl_expand_edges (some 0) nw edges wl traversed stack).1.list,
      jobOutside cfg K j) ∧
    (∀ j ∈ (wl_expand_edges (some 0) nw edges wl traversed stack).2.2,
      jobOutside cfg K j) := by
  unfold wl_expand_edges
  have hP := foldl_pred_mem
    (fun (acc : Worklist × List CFGNode × List DDGJob) e =>
      let wl := acc.1
      let traversed := acc.2.1
      let stack := acc.2.2
      let dst := e.2.1
      if dst ∉ traversed ∧ dst ∉ wl.set then
        let traversed := dst :: traversed
        match e.2.2 with
        | .call =>
          if (some 0 : Option Int) = none ∨ (∃ b, (some 0 : Option Int) = some b ∧ nw.2 < b) then
            let j : DDGJob := (dst, nw.2 + 1)
            (⟨wl.list ++ [j], dst :: wl.set⟩, traversed, j :: stack)
          else
            (wl, traversed, stack)
        | .ret =>
          if nw.2 > 0 then
            let j : DDGJob := (dst, nw.2 - 1)
            (⟨wl.list ++ [j], dst :: wl.set⟩, traversed, j :: stack)
          else
            (wl, traversed, stack)
        | _ =>
          let j : DDGJob := (dst, nw.2)
          (⟨wl.list ++ [j], dst :: wl.set⟩, traversed, j :: stack)
      else
        (wl, traversed, stack))
    (fun acc => (∀ j ∈ acc.1.list, jobOutside cfg K j) ∧
      (∀ j ∈ acc.2.2, jobOutside cfg K j))
    edges
    ?_ (wl, traversed, stack) ⟨hwl, hstack⟩
  · exact hP
  · intro acc e he hacc
    dsimp only
    by_cases hmem : e.2.1 ∉ acc.2.1 ∧ e.2.1 ∉ acc.1.set
    · rw [if_pos hmem]
      have hout : e.2.2 ≠ JumpKind.call → jobOutside cfg K (e.2.1, nw.2) := by
        intro hnc
        have he2 := hedges e he
        refine ⟨List.mem_append_right _ (List.mem_map_of_mem _ he2.1), ?_, hnw2⟩
        intro hK
        exact hnc (HK2 e he2.1 (he2.2 ▸ hnwK) hK)
      cases hkind : e.2.2 with
      | call =>
        dsimp only
        rw [if_neg ?_]
        · exact hacc
        · rintro (hc | ⟨b, hb, hlt⟩)
          · exact Option.noConfusion hc
          · have hb0 : (0 : Int) = b := Option.some.inj hb
            rw [hnw2, ← hb0] at hlt
            exact lt_irrefl 0 hlt
      | ret =>
        dsimp only
        rw [if_neg ?_]
        · exact hacc
        · intro hc
          rw [hnw2] at hc
          exact lt_irrefl 0 hc
      | fakeRet =>
        dsimp only
        refine ⟨?_, ?_⟩
        · intro j hj
          rcases List.mem_append.mp hj with hj | hj
          · exact hacc.1 j hj
          · rw [List.mem_singleton.mp hj]
            exact hout (by rw [hkind]; intro hc; exact JumpKind.noConfusion hc)
        · intro j hj
          rcases List.mem_cons.mp hj with hj | hj
          · rw [hj]
            exact hout (by rw [hkind]; intro hc; exact JumpKind.noConfusion hc)
          · exact hacc.2 j hj
      | ordinary =>
        dsimp only
        refine ⟨?_, ?_⟩
        · intro j hj
          rcases List.mem_append.mp hj with hj | hj
          · exact hacc.1 j hj
          · rw [List.mem_singleton.mp hj]
            exact hout (by rw [hkind]; intro hc; exact JumpKind.noConfusion hc)
        · intro j hj
          rcases List.mem_cons.mp hj with hj | hj
          · rw [hj]
            exact hout (by rw [hkind]; intro hc; exact JumpKind.noConfusion hc)
          · exact hacc.2 j hj
    · rw [if_neg hmem]
      exact hacc

/-- With the bound at 0, the pre-expansion DFS keeps every pending job
outside `K` at depth 0. -/
theorem wl_loop_outside (cfg : CFG) (K : List CFGNode)
    (HK2 : ∀ e ∈ cfg.edges, e.1 ∉ K → e.2.1 ∈ K → e.2.2 = JumpKind.call) :
    ∀ (fuel : Nat) (stack : List DDGJob) (traversed : List CFGNode) (wl : Worklist),
      (∀ j ∈ stack, jobOutside cfg K j) → (∀ j ∈ wl.list, jobOutside cfg K j) →
      ∀ wl', wl_loop cfg (some 0) fuel stack traversed wl = some wl' →
        ∀ j ∈ wl'.list, jobOutside cfg K j := by
  intro fuel
  induction fuel with
  | zero =>
    intro stack traversed wl _ _ wl' h
    exact Option.noConfusion h
  | succ n ih =>
    intro stack traversed wl hstack hwl wl' h
    cases stack with
    | nil =>
      rw [wl_loop] at h
      cases h
      exact hwl
    | cons nw rest =>
      rw [wl_loop] at h
      have hnw := hstack nw (List.mem_cons_self _ _)
      have hrest : ∀ j ∈ rest, jobOutside cfg K j :=
        fun j hj => hstack j (List.mem_cons_of_mem _ hj)
      have hedges : ∀ e ∈ cfg.out_edges nw.1, e ∈ cfg.edges ∧ e.1 = nw.1 := by
        intro e he
        have hf := List.mem_filter.mp he
        exact ⟨hf.1, of_decide_eq_true hf.2⟩
      have hx := wl_expand_edges_outside cfg K HK2 nw hnw.2.2 hnw.2.1
        (cfg.out_edges nw.1) hedges wl traversed rest hwl hrest
      exact ih _ _ _ hx.2 hx.1 wl' h

/-- With the bound at 0, appending a depth-0 job outside `K` keeps every
pending job outside `K` at depth 0. -/
theorem worklist_append_outside (cfg : CFG) (K : List CFGNode)
    (HK2 : ∀ e ∈ cfg.edges, e.1 ∉ K → e.2.1 ∈ K → e.2.2 = JumpKind.call)
    (fuel : Nat) (nw : DDGJob) (hnw : jobOutside cfg K nw)
    (wl : Worklist) (hwl : ∀ j ∈ wl.list, jobOutside cfg K j)
    (wl' : Worklist) (h : worklist_append cfg (some 0) fuel nw wl = some wl') :
    ∀ j ∈ wl'.list, jobOutside cfg K j := by
  unfold worklist_append at h
  by_cases hmem : nw.1 ∈ wl.set
  · rw [if_pos hmem] at h
    cases h
    exact hwl
  · rw [if_neg hmem] at h
    refine wl_loop_outside cfg K HK2 fuel [nw] [nw.1]
      ⟨wl.list ++ [nw], nw.1 :: wl.set⟩ ?_ ?_ wl' h
    · intro j hj
      rw [List.mem_singleton.mp hj]
      exact hnw
    · intro j hj
      rcases List.mem_append.mp hj with hj | hj
      · exact hwl j hj
      · rw [List.mem_singleton.mp hj]
        exact hnw

/-- With the bound at 0, one tracked final state of a node outside `K`
preserves the outside-`K` invariant: skips keep the state, tracking adds
only pairs whose destination is an action location of the node's own
trace, and the only enqueue the bound admits is a depth-0 non-call
successor, which the region assumptions place outside `K`. -/
theorem construct_state_step_outside (keep_data : Bool) (arch : Arch) (cfg : CFG)
    (K : List CFGNode)
    (HK2 : ∀ e ∈ cfg.edges, e.1 ∉ K → e.2.1 ∈ K → e.2.2 = JumpKind.call)
    (HK3 : ∀ n ∈ relevantNodes cfg, n ∉ K → ∀ s ∈ n.final_states,
      ∀ a ∈ s.actions, ∀ m ∈ K, a.bbl_addr ≠ some m.addr)
    (HK4 : ∀ n ∈ relevantNodes cfg, n ∉ K → ∀ s ∈ n.final_states,
      ∀ m ∈ cfg.successors n, m ∈ K → s.ip = some m.addr → s.jumpkind = JumpKind.call)
    (wl_fuel : Nat) (node : CFGNode) (hnodeR : node ∈ relevantNodes cfg)
    (hnodeK : node ∉ K) (call_depth : Int) (hdepth : call_depth = 0) (nstates : Nat)
    (cs : ConstructState) (state : SimState) (hstate : state ∈ node.final_states)
    (hcs : constructOutside cfg K cs) (cs' : ConstructState)
    (h : construct_state_step keep_data arch cfg (some 0) wl_fuel node call_depth
      nstates cs state = .ok (some cs')) :
    constructOutside cfg K cs' := by
  subst hdepth
  unfold construct_state_step at h
  split at h
  · cases h
    exact hcs
  · dsimp only at h
    split at h
    · cases h
      exact hcs
    · cases htr : track keep_data arch cs.heap (alGetD cs.live_defs_per_node node [])
          cs.stmt_graph cs.data_graph state with
      | error e =>
        rw [htr] at h
        exact Except.noConfusion h
      | ok r =>
        rw [htr] at h
        dsimp only at h
        have hstmt : stmtAvoids K r.2.2.1 := by
          intro u v huv m hm
          rcases track_pairs keep_data arch cs.heap (alGetD cs.live_defs_per_node node [])
              cs.stmt_graph cs.data_graph state r htr u v huv with h1 | ⟨a, ha, h2⟩
          · exact hcs.2 u v h1 m hm
          · rw [h2, currentLoc_simrun_addr]
            exact HK3 node hnodeR hnodeK state hstate a ha m hm
        cases hip : state.ip with
        | none =>
          rw [hip] at h
          dsimp only at h
          cases h
          exact ⟨hcs.1, hstmt⟩
        | some ipa =>
          rw [hip] at h
          dsimp only at h
          cases hfl : (cfg.successors node).filter (fun m => decide (m.addr = ipa)) with
          | nil =>
            rw [hfl] at h
            dsimp only at h
            cases h
            exact ⟨hcs.1, hstmt⟩
          | cons succ tail =>
            rw [hfl] at h
            dsimp only at h
            have hsuccmem : succ ∈ (cfg.successors node).filter
                (fun m => decide (m.addr = ipa)) := by
              rw [hfl]
              exact List.mem_cons_self _ _
            have hsuccS : succ ∈ cfg.successors node := (List.mem_filter.mp hsuccmem).1
            have haddr : succ.addr = ipa := of_decide_eq_true (List.mem_filter.mp hsuccmem).2
            have hsuccR : succ ∈ relevantNodes cfg := successor_relevant cfg node succ hsuccS
            split at h
            · dsimp only at h

              cases hjk : state.jumpkind with
              | call =>
                rw [hjk] at h
                dsimp only at h
                split at h
                · rename_i hguard
                  rcases hguard with ⟨-, hc | ⟨b, hb, h0, hb2⟩⟩
                  · exact Option.noConfusion hc
                  · have hb0 : (0 : Int) = b := Option.some.inj hb
                    rw [← hb0] at hb2
                    exact absurd hb2 (by omega)
                · cases h
                  exact ⟨hcs.1, hstmt⟩
              | ret =>
                rw [hjk] at h
                dsimp only at h
                split at h
                · rename_i hguard
                  rcases hguard with ⟨-, hc | ⟨b, hb, h0, hb2⟩⟩
                  · exact Option.noConfusion hc
                  · exact absurd h0 (by omega)
                · cases h
                  exact ⟨hcs.1, hstmt⟩
              | fakeRet =>
                rw [hjk] at h
                dsimp only at h
                have hsK : succ ∉ K := by
                  intro hK
                  have hc := HK4 node hnodeR hnodeK state hstate succ hsuccS hK
                    (by rw [hip, haddr])
                  rw [hjk] at hc
                  exact JumpKind.noConfusion hc
                split at h
                · cases hap : worklist_append cfg (some 0) wl_fuel (succ, 0) cs.wl with
                  | none =>
                    rw [hap] at h
                    exact Option.noConfusion (Except.ok.inj h)
                  | some wl =>
                    rw [hap] at h
                    dsimp only at h
                    cases h
                    refine ⟨?_, hstmt⟩
                    exact worklist_append_outside cfg K HK2 wl_fuel (succ, 0)
                      ⟨hsuccR, hsK, rfl⟩ cs.wl hcs.1 wl hap
                · cases h
                  exact ⟨hcs.1, hstmt⟩
              | ordinary =>
                rw [hjk] at h
                dsimp only at h
                have hsK : succ ∉ K := by
                  intro hK
                  have hc := HK4 node hnodeR hnodeK state hstate succ hsuccS hK
                    (by rw [hip, haddr])
                  rw [hjk] at hc
                  exact JumpKind.noConfusion hc
                split at h
                · cases hap : worklist_append cfg (some 0) wl_fuel (succ, 0) cs.wl with
                  | none =>
                    rw [hap] at h
                    exact Option.noConfusion (Except.ok.inj h)
                  | some wl =>
                    rw [hap] at h
                    dsimp only at h
                    cases h
                    refine ⟨?_, hstmt⟩
                    exact worklist_append_outside cfg K HK2 wl_fuel (succ, 0)
                      ⟨hsuccR, hsK, rfl⟩ cs.wl hcs.1 wl hap
                · cases h
                  exact ⟨hcs.1, hstmt⟩
            · dsimp only at h

              cases hjk : state.jumpkind with
              | call =>
                rw [hjk] at h
                dsimp only at h
                split at h
                · rename_i hguard
                  rcases hguard with ⟨-, hc | ⟨b, hb, h0, hb2⟩⟩
                  · exact Option.noConfusion hc
                  · have hb0 : (0 : Int) = b := Option.some.inj hb
                    rw [← hb0] at hb2
                    exact absurd hb2 (by omega)
                · cases h
                  exact ⟨hcs.1, hstmt⟩
              | ret =>
                rw [hjk] at h
                dsimp only at h
                split at h
                · rename_i hguard
                  rcases hguard with ⟨-, hc | ⟨b, hb, h0, hb2⟩⟩
                  · exact Option.noConfusion hc
                  · exact absurd h0 (by omega)
                · cases h
                  exact ⟨hcs.1, hstmt⟩
              | fakeRet =>
                rw [hjk] at h
                dsimp only at h
                have hsK : succ ∉ K := by
                  intro hK
                  have hc := HK4 node hnodeR hnodeK state hstate succ hsuccS hK
                    (by rw [hip, haddr])
                  rw [hjk] at hc
                  exact JumpKind.noConfusion hc
                split at h
                · cases hap : worklist_append cfg (some 0) wl_fuel (succ, 0) cs.wl with
                  | none =>
                    rw [hap] at h
                    exact Option.noConfusion (Except.ok.inj h)
                  | some wl =>
                    rw [hap] at h
                    dsimp only at h
                    cases h
                    refine ⟨?_, hstmt⟩
                    exact worklist_append_outside cfg K HK2 wl_fuel (succ, 0)
                      ⟨hsuccR, hsK, rfl⟩ cs.wl hcs.1 wl hap
                · cases h
                  exact ⟨hcs.1, hstmt⟩
              | ordinary =>
                rw [hjk] at h
                dsimp only at h
                have hsK : succ ∉ K := by
                  intro hK
                  have hc := HK4 node hnodeR hnodeK state hstate succ hsuccS hK
                    (by rw [hip, haddr])
                  rw [hjk] at hc
                  exact JumpKind.noConfusion hc
                split at h
                · cases hap : worklist_append cfg (some 0) wl_fuel (succ, 0) cs.wl with
                  | none =>
                    rw [hap] at h
                    exact Option.noConfusion (Except.ok.inj h)
                  | some wl =>
                    rw [hap] at h
                    dsimp only at h
                    cases h
                    refine ⟨?_, hstmt⟩
                    exact worklist_append_outside cfg K HK2 wl_fuel (succ, 0)
                      ⟨hsuccR, hsK, rfl⟩ cs.wl hcs.1 wl hap
                · cases h
                  exact ⟨hcs.1, hstmt⟩

/-- With the bound at 0, the whole fixpoint loop preserves the
outside-`K` invariant. -/
theorem construct_loop_outside (keep_data : Bool) (arch : Arch) (cfg : CFG)
    (K : List CFGNode)
    (HK2 : ∀ e ∈ cfg.edges, e.1 ∉ K → e.2.1 ∈ K → e.2.2 = JumpKind.call)
    (HK3 : ∀ n ∈ relevantNodes cfg, n ∉ K → ∀ s ∈ n.final_states,
      ∀ a ∈ s.actions, ∀ m ∈ K, a.bbl_addr ≠ some m.addr)
    (HK4 : ∀ n ∈ relevantNodes cfg, n ∉ K → ∀ s ∈ n.final_states,
      ∀ m ∈ cfg.successors n, m ∈ K → s.ip = some m.addr → s.jumpkind = JumpKind.call)
    (wl_fuel : Nat) :
    ∀ (fuel : Nat) (cs : ConstructState), constructOutside cfg K cs →
      ∀ res, construct_loop keep_data arch cfg (some 0) wl_fuel fuel cs = .ok (some res) →
        constructOutside cfg K res := by
  intro fuel
  induction fuel with
  | zero =>
    intro cs _ res h
    exact Option.noConfusion (Except.ok.inj h)
  | succ n ih =>
    intro cs hcs res h
    rw [construct_loop] at h
    cases hl : cs.wl.list with
    | nil =>
      rw [hl] at h
      dsimp only at h
      cases h
      exact hcs
    | cons job rest =>
      rw [hl] at h
      dsimp only at h
      have hjob := hcs.1 job (by rw [hl]; exact List.mem_cons_self _ _)
      have hrest : ∀ j ∈ rest, jobOutside cfg K j :=
        fun j hj => hcs.1 j (by rw [hl]; exact List.mem_cons_of_mem _ hj)
      have hinv : ∀ (cs2 : ConstructState), cs2.wl.list = rest →
          cs2.stmt_graph = cs.stmt_graph →
          ∀ o, job.1.final_states.foldlM
              (construct_states_step keep_data arch cfg (some 0) wl_fuel job.1 job.2
                job.1.final_states.length) (some cs2) = .ok o →
            ∀ cs3, o = some cs3 → constructOutside cfg K cs3 := by
        intro cs2 hwl2 hsg2 o hfold
        refine foldlM_except_pred_mem
          (construct_states_step keep_data arch cfg (some 0) wl_fuel job.1 job.2
            job.1.final_states.length)
          (fun o => ∀ x, o = some x → constructOutside cfg K x)
          job.1.final_states ?_ (some cs2) o ?_ hfold
        · intro o1 st o2 hst hP ho
          unfold construct_states_step at ho
          cases o1 with
          | none =>
            cases ho
            intro x hx
            exact Option.noConfusion hx
          | some x0 =>
            dsimp only at ho
            intro x hx
            rw [hx] at ho
            exact construct_state_step_outside keep_data arch cfg K HK2 HK3 HK4 wl_fuel
              job.1 hjob.1 hjob.2.1 job.2 hjob.2.2 job.1.final_states.length x0 st hst
              (hP x0 rfl) x ho
        · intro x hx
          cases hx
          refine ⟨fun j hj => hrest j (by rw [hwl2] at hj; exact hj), ?_⟩
          rw [hsg2]
          exact hcs.2
      by_cases hn : (alGet cs.live_defs_per_node job.1).isNone = true
      · rw [if_pos hn] at h
        split at h
        · exact Except.noConfusion h
        · exact Option.noConfusion (Except.ok.inj h)
        · rename_i cs3 heq
          exact ih cs3 (hinv
            { heap := cs.heap, live_defs_per_node := alSet cs.live_defs_per_node job.1 []
              stmt_graph := cs.stmt_graph, data_graph := cs.data_graph
              wl := ⟨rest, cs.wl.set.erase job.1⟩ } rfl rfl _ heq cs3 rfl) res h
      · rw [if_neg hn] at h
        split at h
        · exact Except.noConfusion h
        · exact Option.noConfusion (Except.ok.inj h)
        · rename_i cs3 heq
          exact ih cs3 (hinv
            { heap := cs.heap, live_defs_per_node := cs.live_defs_per_node
              stmt_graph := cs.stmt_graph, data_graph := cs.data_graph
              wl := ⟨rest, cs.wl.set.erase job.1⟩ } rfl rfl _ heq cs3 rfl) res h

/-- With the bound at 0, a completed construction's statement graph avoids
the region `K` that is only reachable through call edges. -/
theorem construct_outside (keep_data : Bool) (arch : Arch) (cfg : CFG)
    (K : List CFGNode)
    (HK1 : ∀ n ∈ K, cfg.in_degree n ≠ 0)
    (HK2 : ∀ e ∈ cfg.edges, e.1 ∉ K → e.2.1 ∈ K → e.2.2 = JumpKind.call)
    (HK3 : ∀ n ∈ relevantNodes cfg, n ∉ K → ∀ s ∈ n.final_states,
      ∀ a ∈ s.actions, ∀ m ∈ K, a.bbl_addr ≠ some m.addr)
    (HK4 : ∀ n ∈ relevantNodes cfg, n ∉ K → ∀ s ∈ n.final_states,
      ∀ m ∈ cfg.successors n, m ∈ K → s.ip = some m.addr → s.jumpkind = JumpKind.call)
    (wl_fuel fuel : Nat) (res : ConstructState)
    (h : construct keep_data arch cfg (some 0) wl_fuel fuel = .ok (some res)) :
    stmtAvoids K res.stmt_graph := by
  unfold construct at h
  cases hs : cfg.nodes.foldlM (fun wl n =>
      if cfg.in_degree n = 0 then worklist_append cfg (some 0) wl_fuel (n, 0) wl
      else some wl) (⟨[], []⟩ : Worklist) with
  | none =>
    rw [hs] at h
    exact Option.noConfusion (Except.ok.inj h)
  | some wl0 =>
    rw [hs] at h
    dsimp only at h
    have hwl0 : ∀ j ∈ wl0.list, jobOutside cfg K j := by
      refine foldlM_option_pred_mem _ (fun wl => ∀ j ∈ wl.list, jobOutside cfg K j)
        cfg.nodes ?_ ⟨[], []⟩ wl0 ?_ hs
      · intro s nd s' hn hP hstep
        by_cases hdeg : cfg.in_degree nd = 0
        · rw [if_pos hdeg] at hstep
          refine worklist_append_outside cfg K HK2 wl_fuel (nd, 0) ?_ s hP s' hstep
          exact ⟨List.mem_append_left _ hn, fun hK => HK1 nd hK hdeg, rfl⟩
        · rw [if_neg hdeg] at hstep
          cases hstep
          exact hP
      · intro j hj
        exact absurd hj (List.not_mem_nil _)
    exact (construct_loop_outside keep_data arch cfg K HK2 HK3 HK4 wl_fuel fuel
      { heap := [], live_defs_per_node := [], stmt_graph := ⟨[], []⟩
        data_graph := ⟨[], []⟩, wl := wl0 }
      ⟨hwl0, fun u v hv => absurd hv (List.not_mem_nil _)⟩ res h).2

/-- Claim C6 (confirmed).  Depth-bounded call tracing: run the
construction with call-depth bound 0 over a CFG whose region `K` (the
called function's nodes) is reachable only through `call` edges from
outside (HK2), is never a seed (HK1), whose blocks are never mentioned by
the traces of nodes outside `K` (HK3), and is entered from outside only by
final states of `call` jump kind (HK4).  Then no statement-graph edge of
the completed analysis has its destination — the location of a tracked
action — inside a block of `K`; in particular no edge lies with both
endpoints inside the called function, because the scheduler neither
pre-expands call successors at the bound nor enqueues them after tracing,
so the tracker never runs on a node of `K`. -/
theorem C6_depth_bounded_call_tracing (keep_data : Bool) (arch : Arch) (cfg : CFG)
    (K : List CFGNode) (wl_fuel fuel : Nat)
    (HK1 : ∀ n ∈ K, cfg.in_degree n ≠ 0)
    (HK2 : ∀ e ∈ cfg.edges, e.1 ∉ K → e.2.1 ∈ K → e.2.2 = JumpKind.call)
    (HK3 : ∀ n ∈ relevantNodes cfg, n ∉ K → ∀ s ∈ n.final_states,
      ∀ a ∈ s.actions, ∀ m ∈ K, a.bbl_addr ≠ some m.addr)
    (HK4 : ∀ n ∈ relevantNodes cfg, n ∉ K → ∀ s ∈ n.final_states,
      ∀ m ∈ cfg.successors n, m ∈ K → s.ip = some m.addr → s.jumpkind = JumpKind.call) :
    ∀ u v, (u, v) ∈ finalStmtPairs (construct keep_data arch cfg (some 0) wl_fuel fuel) →
      ∀ m ∈ K, v.simrun_addr ≠ some m.addr := by
  intro u v huv m hm
  unfold finalStmtPairs at huv
  cases hr : construct keep_data arch cfg (some 0) wl_fuel fuel with
  | error e =>
    rw [hr] at huv
    exact absurd huv (List.not_mem_nil _)
  | ok o =>
    cases o with
    | none =>
      rw [hr] at huv
      exact absurd huv (List.not_mem_nil _)
    | some res =>
      rw [hr] at huv
      exact construct_outside keep_data arch cfg K HK1 HK2 HK3 HK4 wl_fuel fuel res hr
        u v huv m hm

/-- Witness for C6 on the caller/callee CFG with bound 0: the run
completes, the caller's intra-block read-after-write edge is the only
statement-graph edge, and no edge destination lies in the callee's
block. -/
theorem C6_depth_bounded_call_tracing_witness :
    constructCompleted (construct false archTwoRegs cfgC6 (some 0) 10 10) = true ∧
    finalStmtPairs (construct false archTwoRegs cfgC6 (some 0) 10 10) =
      [(locOf 1 0, locOf 1 1)] ∧
    (∀ u v, (u, v) ∈ finalStmtPairs (construct false archTwoRegs cfgC6 (some 0) 10 10) →
      ∀ m ∈ [nodeCallee], v.simrun_addr ≠ some m.addr) :=
  ⟨by decide, by decide,
   C6_depth_bounded_call_tracing false archTwoRegs cfgC6 [nodeCallee] 10 10
     (by decide) (by decide) (by decide) (by decide)⟩

/-- Claim C1 (confirmed).  Kill-on-write is total: whenever the tracker
successfully processes a register or memory write event at location `L`,
the live-definitions map afterwards binds each written variable to exactly
the singleton `{L}`, and on the synthetic trace with two sequential writes
of register 8 followed by a read of it, the resulting statement graph has
exactly one edge, from the second write's location to the read's location
— never from the first write. -/
theorem C1_kill_on_write :
    (∀ (keep_data : Bool) (arch : Arch) (st : TrackState) (a : SimAction)
       (st' : TrackState), trackStep keep_data arch st a = .ok st' →
       ∀ v ∈ writtenVariables a,
         liveDefsSet st'.heap st'.live_defs v = [currentLoc a]) ∧
    (track false archEmpty [] [] ⟨[], []⟩ ⟨[], []⟩ traceWWR).map
        (fun r => r.2.2.1.edgePairs) = .ok [(locOf 7 1, locOf 7 2)] := by
  constructor
  · intro keep arch st a st' hok v hv
    unfold trackStep at hok
    cases hty : a.type with
    | mem =>
      cases hac : a.action with
      | read =>
        simp [writtenVariables, hty, hac] at hv
      | write =>
        rw [hty] at hok
        dsimp only at hok
        simp only [writtenVariables, hty, hac, List.mem_map] at hv
        obtain ⟨ad, hmem, hveq⟩ := hv
        subst hveq
        obtain ⟨r, h1, h2, h3⟩ :=
          mem_write_fold_killed keep arch a (currentLoc a) hac (addrList a) _ st' hok
            ad (Or.inr hmem)
        unfold liveDefsSet
        rw [h1]
        exact h3
    | reg =>
      cases hac : a.action with
      | read =>
        simp [writtenVariables, hty, hac] at hv
      | write =>
        rw [hty] at hok
        dsimp only at hok
        unfold track_reg at hok
        rw [hac] at hok
        dsimp only at hok
        simp only [writtenVariables, hty, hac, List.mem_singleton] at hv
        subst hv
        have hpres :
            st'.heap = (reg_write_state a (currentLoc a)
              (if st.last_statement_id = none ∨ st.last_statement_id ≠ a.stmt_idx then
                { st with data_read := [], last_statement_id := a.stmt_idx }
               else st)).heap ∧
            st'.live_defs = (reg_write_state a (currentLoc a)
              (if st.last_statement_id = none ∨ st.last_statement_id ≠ a.stmt_idx then
                { st with data_read := [], last_statement_id := a.stmt_idx }
               else st)).live_defs :=
          foldlM_except_invariant reg_tmp_dep_step
            (fun x y => y.heap = x.heap ∧ y.live_defs = x.live_defs)
            (fun _ => ⟨rfl, rfl⟩)
            (fun x y z hxy hyz => ⟨hyz.1.trans hxy.1, hyz.2.trans hxy.2⟩)
            (fun x b y hy => ⟨(reg_tmp_dep_step_preserves x b y hy).1,
              (reg_tmp_dep_step_preserves x b y hy).2.1⟩)
            a.tmp_deps _ st' hok
        set stX := (if st.last_statement_id = none ∨ st.last_statement_id ≠ a.stmt_idx then
            { st with data_read := [], last_statement_id := a.stmt_idx }
          else st) with hstX
        have hrw : (reg_write_state a (currentLoc a) stX).heap = stX.heap ++ [[currentLoc a]] ∧
            (reg_write_state a (currentLoc a) stX).live_defs =
              alSet stX.live_defs (SimVariable.reg a.offset a.data_size) stX.heap.length := by
          unfold reg_write_state
          split <;> exact ⟨rfl, rfl⟩
        unfold liveDefsSet
        rw [hpres.2, hrw.2, alGet_alSet_self]
        show heapGet st'.heap stX.heap.length = [currentLoc a]
        rw [hpres.1, hrw.1, heapGet_append_self]
    | tmp =>
      cases hac : a.action <;> simp [writtenVariables, hty, hac] at hv
    | exit =>
      cases hac : a.action <;> simp [writtenVariables, hty, hac] at hv
  · rfl

/-- Witness for C1: a concrete register write from the empty scan state. -/
theorem C1_kill_on_write_witness :
    trackStep false archEmpty stInit (wAct 7 0) =
      .ok ((trackStep false archEmpty stInit (wAct 7 0)).toOption.getD stInit) ∧
    (SimVariable.reg 8 64) ∈ writtenVariables (wAct 7 0) ∧
    liveDefsSet ((trackStep false archEmpty stInit (wAct 7 0)).toOption.getD stInit).heap
      ((trackStep false archEmpty stInit (wAct 7 0)).toOption.getD stInit).live_defs
      (SimVariable.reg 8 64) = [currentLoc (wAct 7 0)] :=
  ⟨rfl, by decide,
   C1_kill_on_write.1 false archEmpty stInit (wAct 7 0) _ rfl
     (SimVariable.reg 8 64) (by decide)⟩

/-- Claim C2 (confirmed).  Merge-on-propagation accumulates: pushing the
tracker's output definitions into a successor's live-defs never drops a
location — everything already in the successor's set and every new
location is in the merged set — and on the concrete diamond CFG where two
entry nodes define register 8 at two different locations and join at node
S, the fixpoint leaves both locations in S's entering set. -/
theorem C2_merge_on_propagation :
    (∀ (h : Heap) (target new_defs : LiveDefs) (v : SimVariable) (loc : CodeLocation),
       ldValid h target →
       loc ∈ liveDefsSet h target v ∨ loc ∈ liveDefsSet h new_defs v →
       loc ∈ liveDefsSet (merge_defs h target new_defs).1
         (merge_defs h target new_defs).2.1 v) ∧
    (locOf 10 0 ∈ finalNodeVarLocs (construct false archEmpty cfgC2 none 10 10)
        nodeS2 (.reg 8 64) ∧
     locOf 11 0 ∈ finalNodeVarLocs (construct false archEmpty cfgC2 none 10 10)
        nodeS2 (.reg 8 64)) :=
  ⟨fun h target new_defs v loc hval hmem =>
    merge_defs_accumulates h target new_defs hval v loc hmem,
   by decide, by decide⟩

/-- Witness for C2 at a concrete merge: the target set holds one location
and the tracker delivers a second one; both are in the merged set. -/
theorem C2_merge_on_propagation_witness :
    ldValid [[locOf 1 0], [locOf 2 0]] [(SimVariable.reg 8 64, 0)] ∧
    (locOf 1 0 ∈ liveDefsSet [[locOf 1 0], [locOf 2 0]] [(SimVariable.reg 8 64, 0)]
        (SimVariable.reg 8 64) ∨
      locOf 1 0 ∈ liveDefsSet [[locOf 1 0], [locOf 2 0]] [(SimVariable.reg 8 64, 1)]
        (SimVariable.reg 8 64)) ∧
    locOf 1 0 ∈ liveDefsSet
      (merge_defs [[locOf 1 0], [locOf 2 0]] [(SimVariable.reg 8 64, 0)]
        [(SimVariable.reg 8 64, 1)]).1
      (merge_defs [[locOf 1 0], [locOf 2 0]] [(SimVariable.reg 8 64, 0)]
        [(SimVariable.reg 8 64, 1)]).2.1 (SimVariable.reg 8 64) ∧
    locOf 2 0 ∈ liveDefsSet
      (merge_defs [[locOf 1 0], [locOf 2 0]] [(SimVariable.reg 8 64, 0)]
        [(SimVariable.reg 8 64, 1)]).1
      (merge_defs [[locOf 1 0], [locOf 2 0]] [(SimVariable.reg 8 64, 0)]
        [(SimVariable.reg 8 64, 1)]).2.1 (SimVariable.reg 8 64) :=
  ⟨by decide, Or.inl (by decide),
   C2_merge_on_propagation.1 [[locOf 1 0], [locOf 2 0]] [(SimVariable.reg 8 64, 0)]
     [(SimVariable.reg 8 64, 1)] (SimVariable.reg 8 64) (locOf 1 0)
     (by decide) (Or.inl (by decide)),
   C2_merge_on_propagation.1 [[locOf 1 0], [locOf 2 0]] [(SimVariable.reg 8 64, 0)]
     [(SimVariable.reg 8 64, 1)] (SimVariable.reg 8 64) (locOf 2 0)
     (by decide) (Or.inr (by decide))⟩

/-- Booleans equal when their truths are equivalent. -/
theorem bool_eq_of_iff {a b : Bool} (h : a = true ↔ b = true) : a = b := by
  cases a <;> cases b <;> simp_all

/-- Claim C4 (corrected).  Simplification does eliminate every temporary
node, and every `(pred, T) x (T, succ)` pair with non-temporary endpoints
yields a direct `(pred, succ)` edge in the simplified graph; on the chain
`reg A -> tmp T -> reg B` the single direct edge carries exactly the
in-edge's labels overlaid by the out-edge's labels, the out-edge winning
on the shared key.  The original claim's universal statement about the
label map is false (see the counterexample): `networkx.add_edge` on a
pre-existing `(pred, succ)` edge updates that edge's labels instead of
replacing them, so the resulting label map equals the overlay only when
nothing else contributed to the pair. -/
theorem C4_simplification_splices_temporaries :
    (∀ g : DiGraph ProgramVariable, g.wf →
       ∀ n ∈ (simplify_data_graph g).nodes, n.variable_.isTmp = false) ∧
    (∀ g : DiGraph ProgramVariable, g.wf →
       ∀ pred succ T : ProgramVariable,
         T.variable_.isTmp = true → pred.variable_.isTmp = false →
         succ.variable_.isTmp = false →
         g.hasEdge pred T = true → g.hasEdge T succ = true →
         (simplify_data_graph g).hasEdge pred succ = true) ∧
    simplify_data_graph gChain =
      ⟨[pvRA, pvRB],
       [(pvRA, pvRB, [("type", .s "mem_data"), ("k1", .n 1), ("k2", .n 2)])]⟩ := by
  refine ⟨?_, ?_, by decide⟩
  · intro g hwf n hn
    unfold simplify_data_graph at hn
    rw [(simplifyWith_nodes_closed (tmpNodes g) g hwf.1).1] at hn
    cases htmp : n.variable_.isTmp with
    | false => rfl
    | true =>
      exfalso
      have hng : n ∈ g.nodes := mem_of_mem_foldl_erase _ _ _ hn
      have hnt : n ∈ tmpNodes g := by
        unfold tmpNodes
        rw [List.mem_filter]
        exact ⟨hng, htmp⟩
      exact not_mem_foldl_erase (tmpNodes g) g.nodes n hwf.2.2 hnt hn
  · intro g hwf pred succ T hT hpred hsucc hpT hTs
    unfold simplify_data_graph
    rw [simplifyWith_hasEdge]
    have hnottmp : ∀ x : ProgramVariable, x.variable_.isTmp = false →
        x ∉ tmpNodes g := by
      intro x hx hc
      unfold tmpNodes at hc
      rw [List.mem_filter] at hc
      rw [hx] at hc
      exact Bool.noConfusion hc.2
    refine ⟨hnottmp pred hpred, hnottmp succ hsucc, ?_⟩
    have hTmem : T ∈ tmpNodes g := by
      unfold tmpNodes
      rw [List.mem_filter]
      exact ⟨(hasEdge_endpoints g hwf.1 pred T hpT).2, hT⟩
    exact Thru.step hpT hTmem (Thru.base hTs)

/-- Counterexample for C4 as stated: with a pre-existing direct edge
`A -> B` labelled `foo = 5` next to the path `A -> T1 -> B` whose two
edges have empty label maps, the in/out overlay is the empty map, but the
simplified graph's `A -> B` edge still carries `foo = 5` — the splice's
`add_edge` updated the existing edge instead of giving it the overlay. -/
theorem C4_label_overlay_counterexample :
    gPre.in_edges pvT1 = [(pvRA, pvT1, [])] ∧
    gPre.out_edges pvT1 = [(pvT1, pvRB, [])] ∧
    dUpdate [] [] = ([] : Labels) ∧
    DiGraph.getEdgeLabels (simplify_data_graph gPre) pvRA pvRB =
      some [("foo", .n 5)] ∧
    some ([("foo", LVal.n 5)] : Labels) ≠ some ([] : Labels) :=
  ⟨rfl, rfl, rfl, rfl, by decide⟩

/-- Witness for C4's amended statement at the concrete chain graph. -/
theorem C4_simplification_witness :
    gChain.wf ∧
    (∀ n ∈ (simplify_data_graph gChain).nodes, n.variable_.isTmp = false) ∧
    (simplify_data_graph gChain).hasEdge pvRA pvRB = true :=
  ⟨by decide,
   fun n hn => C4_simplification_splices_temporaries.1 gChain (by decide) n hn,
   C4_simplification_splices_temporaries.2.1 gChain (by decide) pvRA pvRB pvT1
     (by decide) (by decide) (by decide) (by decide) (by decide)⟩

/-- Claim C5 (corrected).  Any two orderings of the temporary-removal
sequence produce the same node set and the same unlabelled edge set; the
labelled graphs can differ (see the counterexample), because two splices
into the same `(pred, succ)` pair overwrite each other's label keys in
removal order. -/
theorem C5_order_independence_unlabelled (g : DiGraph ProgramVariable)
    (l1 l2 : List ProgramVariable) (hc : g.closed) (hperm : l1.Perm l2) :
    (simplifyWith g l1).nodes = (simplifyWith g l2).nodes ∧
    ∀ u v, (simplifyWith g l1).hasEdge u v = (simplifyWith g l2).hasEdge u v := by
  constructor
  · rw [(simplifyWith_nodes_closed l1 g hc).1, (simplifyWith_nodes_closed l2 g hc).1,
      foldl_erase_perm hperm]
  · intro u v
    apply bool_eq_of_iff
    rw [simplifyWith_hasEdge, simplifyWith_hasEdge]
    constructor
    · rintro ⟨a, b, c⟩
      exact ⟨fun hm => a (hperm.mem_iff.mpr hm), fun hm => b (hperm.mem_iff.mpr hm),
        Thru.mono_S (fun x hx => hperm.mem_iff.mp hx) c⟩
    · rintro ⟨a, b, c⟩
      exact ⟨fun hm => a (hperm.mem_iff.mp hm), fun hm => b (hperm.mem_iff.mp hm),
        Thru.mono_S (fun x hx => hperm.mem_iff.mpr hx) c⟩

/-- Counterexample for C5 as stated: two removal orders of the same
temporary set produce different labelled graphs — the final `A -> B` label
is whichever splice ran last. -/
theorem C5_order_dependence_counterexample :
    [pvT1, pvT2].Perm [pvT2, pvT1] ∧
    tmpNodes gTwoPaths = [pvT1, pvT2] ∧
    DiGraph.getEdgeLabels (simplifyWith gTwoPaths [pvT1, pvT2]) pvRA pvRB =
      some [("t", .s "Y")] ∧
    DiGraph.getEdgeLabels (simplifyWith gTwoPaths [pvT2, pvT1]) pvRA pvRB =
      some [("t", .s "X")] ∧
    simplifyWith gTwoPaths [pvT1, pvT2] ≠ simplifyWith gTwoPaths [pvT2, pvT1] :=
  ⟨List.Perm.swap pvT2 pvT1 [], by decide, by decide, by decide, by decide⟩

/-- Witness for C5's amended statement at the two-path graph. -/
theorem C5_order_independence_witness :
    gTwoPaths.closed ∧
    ((simplifyWith gTwoPaths [pvT1, pvT2]).nodes =
        (simplifyWith gTwoPaths [pvT2, pvT1]).nodes ∧
      ∀ u v, (simplifyWith gTwoPaths [pvT1, pvT2]).hasEdge u v =
        (simplifyWith gTwoPaths [pvT2, pvT1]).hasEdge u v) :=
  ⟨by decide,
   C5_order_independence_unlabelled gTwoPaths [pvT1, pvT2] [pvT2, pvT1]
     (by decide) (List.Perm.swap pvT2 pvT1 [])⟩

/-- Claim C9 (code bug).  The frame property fails: `_track` makes only a
shallow copy of the node's live-defs dict, and the merge aliases set
objects across nodes (`defs_for_next_node[var] = code_loc_set`) and then
mutates them in place (`.add`).  On the CFG `A -> P -> S <- Q`, where A
writes register 8 at `(10,0)` and Q writes it at `(13,0)`, the merge of
Q's definitions into the join node S mutates P's stored set through the
shared object: after the run P's entry for register 8 is
`{(10,0), (13,0)}` although only `(10,0)` was ever propagated into P. -/
theorem C9_merge_mutates_other_nodes :
    finalNodeVarLocs (construct false archEmpty cfgC9 none 10 10) nodeP9
        (.reg 8 64) = [locOf 10 0, locOf 13 0] ∧
    locOf 13 0 ∈ finalNodeVarLocs (construct false archEmpty cfgC9 none 10 10)
        nodeP9 (.reg 8 64) ∧
    constructCompleted (construct false archEmpty cfgC9 none 10 10) = true :=
  ⟨by decide, by decide, by decide⟩

/-- Claim C7 (code bug).  The source (ddg.py:549-552) answers a known
register offset by reading `self.project.arch.register_name` — an
attribute an `archinfo` architecture does not carry — and indexing
`registers` with that fixed name, so the result never depends on which
known offset was asked for: on a faithful architecture object the lookup
raises `AttributeError` instead of returning the recorded size, and even
if the stray attribute existed the function would return register `"a"`'s
size 4 for offset 8 whose recorded size is 8.  Only the unknown-offset
fallback (return 1 after a warning) behaves as claimed. -/
theorem C7_register_size_lookup :
    get_register_size archTwoRegs 8 = .error .attributeError ∧
    get_register_size archTwoRegsAttr 8 = .ok 4 ∧
    alGet archTwoRegsAttr.register_names 8 = some "b" ∧
    alGet archTwoRegsAttr.registers "b" = some (8, 8) ∧
    get_register_size archTwoRegs 99 = .ok 1 ∧
    get_register_size archTwoRegsAttr 99 = .ok 1 :=
  ⟨rfl, rfl, rfl, rfl, rfl, rfl⟩

/-- Claim C3 (confirmed).  Inserting a `(src, dst)` edge that already
exists into either the statement graph or the data graph is a no-op: the
graph (nodes, edges and labels) is returned unchanged and exactly one
`(src, dst)` edge exists afterwards, so labels can only change through the
explicit annotation path. -/
theorem C3_idempotent_edge_insertion
    (gs : DiGraph CodeLocation) (gd : DiGraph ProgramVariable)
    (s d : CodeLocation) (ls lnew : Labels)
    (s' d' : ProgramVariable) (ls' lnew' : Labels)
    (hwfs : gs.wf) (hwfd : gd.wf)
    (hs : (s, d, ls) ∈ gs.edges) (hd : (s', d', ls') ∈ gd.edges) :
    stmt_graph_add_edge gs s d lnew = gs ∧
    data_graph_add_edge gd s' d' lnew' = gd ∧
    (stmt_graph_add_edge gs s d lnew).countEdges s d = 1 ∧
    (data_graph_add_edge gd s' d' lnew').countEdges s' d' = 1 := by
  have hsE : gs.hasEdge s d = true :=
    (DiGraph.hasEdge_iff_pairs gs s d).mpr (List.mem_map_of_mem _ hs)
  have hdE : gd.hasEdge s' d' = true :=
    (DiGraph.hasEdge_iff_pairs gd s' d').mpr (List.mem_map_of_mem _ hd)
  have h1 : stmt_graph_add_edge gs s d lnew = gs := by
    unfold stmt_graph_add_edge
    rw [if_pos ⟨(hwfs.1 _ hs).1, hsE⟩]
  have h2 : data_graph_add_edge gd s' d' lnew' = gd := by
    unfold data_graph_add_edge
    rw [if_pos ⟨(hwfd.1 _ hd).1, hdE⟩]
  refine ⟨h1, h2, ?_, ?_⟩
  · rw [h1]
    exact filter_pair_length_one gs.edges s d ls hwfs.2.1 hs
  · rw [h2]
    exact filter_pair_length_one gd.edges s' d' ls' hwfd.2.1 hd

/-- Witness for C3 at concrete one-edge graphs. -/
theorem C3_idempotent_edge_insertion_witness :
    gsC3.wf ∧ gdC3.wf ∧
    (locOf 1 0, locOf 1 1, [("type", LVal.s "reg")]) ∈ gsC3.edges ∧
    (pvRA, pvRB, ([] : Labels)) ∈ gdC3.edges ∧
    (stmt_graph_add_edge gsC3 (locOf 1 0) (locOf 1 1) [("count", .n 0)] = gsC3 ∧
     data_graph_add_edge gdC3 pvRA pvRB [("type", .s "mem_addr")] = gdC3 ∧
     (stmt_graph_add_edge gsC3 (locOf 1 0) (locOf 1 1) [("count", .n 0)]).countEdges
       (locOf 1 0) (locOf 1 1) = 1 ∧
     (data_graph_add_edge gdC3 pvRA pvRB [("type", .s "mem_addr")]).countEdges pvRA pvRB = 1) :=
  ⟨by decide, by decide, by decide, by decide,
   C3_idempotent_edge_insertion gsC3 gdC3 (locOf 1 0) (locOf 1 1)
     [("type", .s "reg")] [("count", .n 0)] pvRA pvRB [] [("type", .s "mem_addr")]
     (by decide) (by decide) (by decide) (by decide)⟩

/-- Claim C10 (confirmed).  With `keep_data = False`, every label map the
reaching-definition lookup produces carries `count = 0`: the reaching set
is a Python set of distinct locations, so the `count + 1` branch for an
already-seen source location never fires within one lookup. -/
theorem C10_count_label_always_zero (h : Heap) (ld : LiveDefs) (v : SimVariable)
    (pd : List (CodeLocation × Labels))
    (hnd : ∀ r, alGet ld v = some r → (heapGet h r).Nodup)
    (hok : def_lookup false h ld v = .ok pd) :
    ∀ p ∈ pd, dGet p.2 "count" = some (.n 0) := by
  unfold def_lookup at hok
  cases hr : alGet ld v with
  | none =>
    rw [hr] at hok
    cases hok
    intro p hp
    simp at hp
  | some r =>
    rw [hr] at hok
    exact def_lookup_count_zero_aux v (heapGet h r) [] [] pd (hnd r hr)
      (by simp) (by simp) hok

/-- Witness for C10: a two-element reaching set, both labels carry
`count = 0`. -/
theorem C10_count_label_always_zero_witness :
    def_lookup false [[locOf 1 0, locOf 2 0]] [(SimVariable.reg 8 64, 0)]
      (SimVariable.reg 8 64) =
      .ok [(locOf 1 0, [("type", .s "reg"), ("count", .n 0)]),
           (locOf 2 0, [("type", .s "reg"), ("count", .n 0)])] ∧
    (∀ p ∈ [(locOf 1 0, [("type", LVal.s "reg"), ("count", LVal.n 0)]),
            (locOf 2 0, [("type", LVal.s "reg"), ("count", LVal.n 0)])],
      dGet p.2 "count" = some (.n 0)) :=
  ⟨rfl,
   C10_count_label_always_zero [[locOf 1 0, locOf 2 0]] [(SimVariable.reg 8 64, 0)]
     (SimVariable.reg 8 64) _
     (by
       intro r hr
       simp [alGet] at hr
       subst hr
       decide)
     rfl⟩

/-- Claim C8 (confirmed).  Function projection is complete and two-sided:
assuming the known functions' block sets are pairwise disjoint (true of a
real function index, where each basic block belongs to one function),
every statement-graph edge with an endpoint whose block belongs to a
known function appears in that function's subgraph — so a cross-function
edge appears in both functions' subgraphs — and `function_dependency_graph`
answers `none` (a "not found" result, not an empty graph) for a function
to which no edge is attributed. -/
theorem C8_function_projection (g : DiGraph CodeLocation) (funcs : List Function)
    (hdisj : ∀ f1 ∈ funcs, ∀ f2 ∈ funcs, f1 ≠ f2 → ∀ a, a ∈ f1.blocks → a ∉ f2.blocks) :
    (∀ e ∈ g.edges, ∀ f ∈ funcs, ∀ a : Nat,
        (e.1.simrun_addr = some a ∨ (e.2.1 : CodeLocation).simrun_addr = some a) →
        a ∈ f.blocks → fdgHasEdge g funcs f e.1 e.2.1 = true) ∧
    (∀ f : Function,
        (∀ e ∈ g.edges, locFunc funcs e.1 ≠ some f ∧ locFunc funcs e.2.1 ≠ some f) →
        function_dependency_graph g funcs f = none) := by
  constructor
  · intro e he f hf a hside ha
    have hattr : locFunc funcs e.1 = some f ∨ locFunc funcs e.2.1 = some f := by
      rcases hside with h | h
      · exact Or.inl (locFunc_of_block funcs hdisj f hf e.1 a h ha)
      · exact Or.inr (locFunc_of_block funcs hdisj f hf e.2.1 a h ha)
    obtain ⟨G, h1, h2⟩ := build_fold_has funcs f g.edges [] e he hattr
    unfold fdgHasEdge function_dependency_graph build_function_dependency_graphs
    rw [h1]
    exact h2
  · intro f hno
    unfold function_dependency_graph build_function_dependency_graphs
    exact build_fold_none funcs f g.edges [] hno rfl

/-- Witness for C8: in the concrete graph `gC8` the cross-function edge
from block 10 to block 20 lands in both `funcF`'s and `funcG`'s
subgraphs, and `funcH`, owning no edge endpoint, has no subgraph at
all. -/
theorem C8_function_projection_witness :
    fdgHasEdge gC8 [funcF, funcG, funcH] funcF (locOf 10 0) (locOf 20 0) = true ∧
    fdgHasEdge gC8 [funcF, funcG, funcH] funcG (locOf 10 0) (locOf 20 0) = true ∧
    function_dependency_graph gC8 [funcF, funcG, funcH] funcH = none := by
  have H := C8_function_projection gC8 [funcF, funcG, funcH] (by decide)
  refine ⟨?_, ?_, ?_⟩
  · exact H.1 (locOf 10 0, locOf 20 0, [("type", LVal.s "reg")]) (by decide) funcF
      (by decide) 10 (Or.inl rfl) (by decide)
  · exact H.1 (locOf 10 0, locOf 20 0, [("type", LVal.s "reg")]) (by decide) funcG
      (by decide) 20 (Or.inr rfl) (by decide)
  · exact H.2 funcH (by decide)

end DDGModel
